import Mathlib

/-
Verification of the hierarchical `Settings` store of `core/settings.py`
(an automatic multi-level dictionary, subclass of `dict`).

The development contains two complementary shallow embeddings:

* a *pure tree model*: a `Settings` node is an association list
  `List (Key × Val)` kept in insertion order (Python dicts preserve
  insertion order); values are scalars, raw Python lists, raw Python
  dicts, or nested nodes.  Mutating methods are modelled as functions
  returning the updated tree.

* a *heap model*: Python objects (`Settings` instances and `list`
  objects) live in a heap indexed by addresses, and values may be
  references.  This model captures object identity and sharing, which
  the pure model cannot (e.g. `copy()` sharing leaf containers, or
  `update` storing a value by reference).

Python strings are modelled through their character lists (`String.data`)
because the built-in `String` comparison functions of Lean do not reduce;
`lexLt` below is exactly Python's code-point lexicographic `<` on `str`,
and `pyLower` is Python's `str.lower` restricted to ASCII (all keys in
the verified examples are ASCII).
-/

/-- Python's `str.lower` on a single ASCII character: code points 65..90
(`A`..`Z`) are shifted by 32, everything else is untouched. -/
def lowerCh (c : Char) : Char :=
  if 65 ≤ c.toNat ∧ c.toNat ≤ 90 then Char.ofNat (c.toNat + 32) else c

/-- Python's `str.lower` (ASCII fragment), acting on the character list of
the string. -/
def pyLower (s : String) : String := ⟨s.data.map lowerCh⟩

/-- Python's lexicographic `<` on strings, by code points: a strict prefix
is smaller, otherwise the first differing position decides. -/
def lexLt : List Char → List Char → Bool
  | [], [] => false
  | [], _ :: _ => true
  | _ :: _, [] => false
  | a :: as, b :: bs =>
    if a.toNat < b.toNat then true
    else if b.toNat < a.toNat then false
    else lexLt as bs

/-- Python string `<` (code-point lexicographic order). -/
def strLtB (a b : String) : Bool := lexLt a.data b.data

/-- Python string `<=`: the negation of the converse strict comparison. -/
def strLeB (a b : String) : Bool := ! strLtB b a

/-- Does the character list start with two underscores (code point 95)?
Used for `name.startswith('__')` / `name.endswith('__')` (on the reversed
list) in the attribute dunder test. -/
def startsUU : List Char → Bool
  | c :: d :: _ => c.toNat == 95 && d.toNat == 95
  | _ => false

/-- The test `name.startswith('__') and name.endswith('__')` used by
`__getattr__`, `__setattr__` and `__delattr__` of `Settings`. -/
def dunderB (s : String) : Bool := startsUU s.data && startsUU s.data.reverse

/-- Dictionary keys of the model.  Python allows any hashable key; the
embedding covers the two kinds exercised by the specification: strings
and integers. -/
inductive Key where
  | kstr (s : String)
  | kint (n : Int)
deriving DecidableEq

/-- Python's `str(key)` for a model key (identity on strings, decimal
rendering of integers). -/
def pyStr : Key → String
  | Key.kstr s => s
  | Key.kint n => toString n

/-- Is the key a string? -/
def keyIsStr : Key → Bool
  | Key.kstr _ => true
  | _ => false

/-- Is the key an integer? -/
def keyIsInt : Key → Bool
  | Key.kint _ => true
  | _ => false

/-- Python `<` between two keys of the same type.  Comparing an `int`
with a `str` raises `TypeError` in Python; `sorted` on a key list holding
both kinds therefore raises, and `Settings.__iter__` catches that and
falls back to sorting by `str(key)`.  The cross-type values returned
here are never used: `keyLtB` is only applied to homogeneous key lists
(see `sortKeys`). -/
def keyLtB : Key → Key → Bool
  | Key.kstr a, Key.kstr b => strLtB a b
  | Key.kint a, Key.kint b => decide (a < b)
  | Key.kstr _, Key.kint _ => false
  | Key.kint _, Key.kstr _ => false

/-- Python `<` between the string forms of two keys: comparison key of the
`sorted(self.keys(), key=str)` fallback in `Settings.__iter__`. -/
def keyStrLtB (a b : Key) : Bool := strLtB (pyStr a) (pyStr b)

/-- Does the key list hold both a string key and an integer key?  Exactly
then does `sorted(keys)` raise `TypeError` (some cross-type comparison is
unavoidable), making `Settings.__iter__` take its fallback branch. -/
def mixedKeys (ks : List Key) : Bool := ks.any keyIsStr && ks.any keyIsInt

/-- Stable insertion step: place `a` after every element strictly smaller
than it, before the first element not smaller than it.  With a strict
comparison `lt` this matches the stable ascending order produced by
Python's `sorted`. -/
def insertSorted {β : Type} (lt : β → β → Bool) (a : β) : List β → List β
  | [] => [a]
  | b :: l => if lt b a then b :: insertSorted lt a l else a :: b :: l

/-- Stable insertion sort with strict comparison `lt` (the model of
Python's `sorted`). -/
def sortByB {β : Type} (lt : β → β → Bool) : List β → List β
  | [] => []
  | a :: l => insertSorted lt a (sortByB lt l)

/-- `Settings.__iter__` on a key list: `sorted(keys)` under the native
order, falling back to `sorted(keys, key=str)` when the list mixes
strings and integers (the `TypeError` branch). -/
def sortKeys (ks : List Key) : List Key :=
  if mixedKeys ks then sortByB keyStrLtB ks else sortByB keyLtB ks

/-- The key sequence produced by iterating a node whose entry list is
`es` (keys of a Python dict are unique and in insertion order; iteration
re-sorts them). -/
def iterKeysE {β : Type} (es : List (Key × β)) : List Key :=
  sortKeys (es.map Prod.fst)

/-- The entry sequence visited by `for name in other: ... other[name]`
when `other` is a `Settings`: entries reordered by the iteration order of
the keys.  For the duplicate-free entry lists produced by Python dicts
this is the stable sort of the entries by their keys, under the same
comparison (with the same string-form fallback) as `sortKeys`. -/
def sortEntriesB {β : Type} (es : List (Key × β)) : List (Key × β) :=
  if mixedKeys (es.map Prod.fst) then
    sortByB (fun a b => keyStrLtB a.1 b.1) es
  else
    sortByB (fun a b => keyLtB a.1 b.1) es

/-- The Python exceptions relevant to the modelled fragment. -/
inductive PyErr where
  | attributeError
  | keyError
  | typeError
deriving DecidableEq

/-- Association-list lookup, first match (Python dict lookup; entry lists
built through the model's own operations never hold a key twice). -/
def lookupE {β : Type} : List (Key × β) → Key → Option β
  | [], _ => none
  | (k1, v) :: rest, k => if k1 = k then some v else lookupE rest k

/-- Association-list update: an existing key keeps its position (and its
original key object), a new key is appended — exactly the insertion-order
behaviour of `dict.__setitem__`. -/
def setE {β : Type} : List (Key × β) → Key → β → List (Key × β)
  | [], k, v => [(k, v)]
  | (k1, v1) :: rest, k, v =>
    if k1 = k then (k1, v) :: rest else (k1, v1) :: setE rest k v

/-- Association-list removal of the first occurrence of a key
(`dict.__delitem__` on a present key). -/
def delE {β : Type} : List (Key × β) → Key → List (Key × β)
  | [], _ => []
  | (k1, v1) :: rest, k => if k1 = k then rest else (k1, v1) :: delE rest k

/-- `key in dict` on the raw entry list (no `ig` resolution). -/
def containsE {β : Type} (es : List (Key × β)) (k : Key) : Bool :=
  (lookupE es k).isSome

/-- Values of the pure tree model: integer and string scalars, raw Python
lists, raw Python dicts (plain mappings that are *not* `Settings`), and
`Settings` nodes. -/
inductive Val where
  | vint (n : Int)
  | vstr (s : String)
  | vlist (xs : List Val)
  | vdict (es : List (Key × Val))
  | vnode (es : List (Key × Val))

/-- Inserting an element via `insertSorted` grows `sizeOf` by exactly the
element's contribution (used to justify the recursion of the iteration-
ordered merge functions below). -/
theorem sizeOf_insertSorted {β : Type} [SizeOf β] (lt : β → β → Bool) (a : β)
    (l : List β) : sizeOf (insertSorted lt a l) = 1 + sizeOf a + sizeOf l := by
  induction l with
  | nil => simp [insertSorted]
  | cons b t ih =>
    simp only [insertSorted]
    split
    all_goals simp only [List.cons.sizeOf_spec, ih]
    all_goals omega

/-- `sortByB` preserves `sizeOf`. -/
theorem sizeOf_sortByB {β : Type} [SizeOf β] (lt : β → β → Bool) (l : List β) :
    sizeOf (sortByB lt l) = sizeOf l := by
  induction l with
  | nil => rfl
  | cons b t ih =>
    simp only [sortByB, sizeOf_insertSorted, ih, List.cons.sizeOf_spec]

/-- `sortEntriesB` preserves `sizeOf`. -/
theorem sizeOf_sortEntriesB {β : Type} [SizeOf β] (es : List (Key × β)) :
    sizeOf (sortEntriesB es) = sizeOf es := by
  unfold sortEntriesB
  split
  · exact sizeOf_sortByB _ es
  · exact sizeOf_sortByB _ es

mutual

/-- `Settings.__init__` applied to the entries of a source mapping:
`dict.__init__` copies the entries in insertion order, then the loop
replaces every dict-valued entry by `Settings(v)` and rebuilds every
list-valued entry with dict elements wrapped.  (The inner assignment
`self[k] = Settings(v)` additionally passes through `__setitem__`, which
re-wraps the freshly built `Settings` once more; that extra pass
re-builds an identical tree, so the composite effect on the value tree
is the single pass modelled here.) -/
def constructEntries : List (Key × Val) → List (Key × Val)
  | [] => []
  | (k, v) :: rest => (k, constructTop v) :: constructEntries rest

/-- The effect of the `__init__` loop on one stored value: dicts (and
`Settings`, which pass the same `isinstance(v, dict)` test) are wrapped
recursively, lists are rebuilt with their dict elements wrapped,
everything else is left as stored by `dict.__init__`. -/
def constructTop : Val → Val
  | Val.vdict d => Val.vnode (constructEntries d)
  | Val.vnode d => Val.vnode (constructEntries d)
  | Val.vlist xs => Val.vlist (wrapElems xs)
  | v => v

/-- The list comprehension `[Settings(i) if isinstance(i, dict) else i
for i in v]` of `__init__`: dict (and `Settings`) elements are wrapped,
all other elements — nested lists included — are kept untouched. -/
def wrapElems : List Val → List Val
  | [] => []
  | v :: rest => wrapElem v :: wrapElems rest

/-- One element of the comprehension above. -/
def wrapElem : Val → Val
  | Val.vdict d => Val.vnode (constructEntries d)
  | Val.vnode d => Val.vnode (constructEntries d)
  | v => v

end

/-- The value conversion of `Settings.__setitem__`: a value that is a
dict (which includes `Settings` instances) is replaced by
`Settings(value)`; any other value — lists included — is stored as is. -/
def setItemWrap : Val → Val
  | Val.vdict d => Val.vnode (constructEntries d)
  | Val.vnode d => Val.vnode (constructEntries d)
  | v => v

/-- `Settings.__setitem__` (with an already-resolved key): convert the
value, then store it with dict insertion-order semantics. -/
def setItemP (es : List (Key × Val)) (k : Key) (v : Val) : List (Key × Val) :=
  setE es k (setItemWrap v)

/-- `Settings.__getitem__` (with an already-resolved key) in the pure
model, returning the possibly-extended node together with the value read:
a present key is returned untouched; a missing key triggers
`__missing__`, which stores `Settings()` under the key and returns the
freshly stored empty node. -/
def getItemP (es : List (Key × Val)) (k : Key) : List (Key × Val) × Val :=
  match lookupE es k with
  | some v => (es, v)
  | none => (setItemP es k (Val.vnode []), Val.vnode [])

mutual

/-- `Settings.copy`: `ret = Settings()`, then for every key in iteration
order, `ret[name] = self[name].copy()` for node values and
`ret[name] = self[name]` otherwise; each store passes through
`__setitem__`. -/
def copyEntries (es : List (Key × Val)) : List (Key × Val) :=
  copyGoP [] (sortEntriesB es)
termination_by sizeOf es + 1
decreasing_by
  simp only [sizeOf_sortEntriesB]
  omega

/-- The loop of `Settings.copy` over the remaining (iteration-ordered)
entries, accumulating the new node `ret`. -/
def copyGoP : List (Key × Val) → List (Key × Val) → List (Key × Val)
  | ret, [] => ret
  | ret, (k, Val.vnode d) :: rest =>
    copyGoP (setItemP ret k (Val.vnode (copyEntries d))) rest
  | ret, (k, v) :: rest => copyGoP (setItemP ret k v) rest
termination_by _ pending => sizeOf pending
decreasing_by
  all_goals simp only [List.cons.sizeOf_spec, Prod.mk.sizeOf_spec,
    Val.vnode.sizeOf_spec]
  all_goals omega

end

mutual

/-- `Settings.soft_update(other)` for a `Settings` argument: iterate
`other` in its (sorted) iteration order and apply the per-key step. -/
def softUpdateEntries (selfE otherE : List (Key × Val)) : List (Key × Val) :=
  softUpdateGoP selfE (sortEntriesB otherE)
termination_by sizeOf otherE + 1
decreasing_by
  simp only [sizeOf_sortEntriesB]
  omega

/-- The loop of `soft_update` over the pending (iteration-ordered)
entries of `other`: apply the per-key step to each entry in turn. -/
def softUpdateGoP : List (Key × Val) → List (Key × Val) → List (Key × Val)
  | selfE, [] => selfE
  | selfE, (k, v) :: rest => softUpdateGoP (softUpdateStepP selfE k v) rest
termination_by _ pending => sizeOf pending
decreasing_by
  all_goals simp only [List.cons.sizeOf_spec, Prod.mk.sizeOf_spec]
  all_goals omega

/-- One key of `soft_update`: a node value is deep-copied in when the
key is absent, merged recursively when the key also holds a node in
self, and ignored otherwise; a non-node value is stored only when the
key is absent.  Stores of absent keys pass through `__setitem__`
(`setItemP`); the recursive branch mutates the existing child node in
place (`setE` without conversion). -/
def softUpdateStepP : List (Key × Val) → Key → Val → List (Key × Val)
  | selfE, k, Val.vnode oe =>
    (match lookupE selfE k with
     | none => setItemP selfE k (Val.vnode (copyEntries oe))
     | some (Val.vnode se) => setE selfE k (Val.vnode (softUpdateEntries se oe))
     | some _ => selfE)
  | selfE, k, v =>
    (match lookupE selfE k with
     | some _ => selfE
     | none => setItemP selfE k v)
termination_by _ _ v => sizeOf v + 1
decreasing_by
  all_goals simp only [Val.vnode.sizeOf_spec]
  all_goals omega

end

/-- `Settings.soft_update(other)` for a *plain dict* argument: identical
per-key logic, but `for name in other` follows the plain dict's own
iteration order, i.e. insertion order — no sorting. -/
def softUpdateDictP (selfE otherE : List (Key × Val)) : List (Key × Val) :=
  softUpdateGoP selfE otherE

mutual

/-- `Settings.update(other)` for a `Settings` argument: iterate `other`
in its (sorted) iteration order and apply the per-key step. -/
def updateEntries (selfE otherE : List (Key × Val)) : List (Key × Val) :=
  updateGoP selfE (sortEntriesB otherE)
termination_by sizeOf otherE + 1
decreasing_by
  simp only [sizeOf_sortEntriesB]
  omega

/-- The loop of `update` over the pending (iteration-ordered) entries of
`other`: apply the per-key step to each entry in turn. -/
def updateGoP : List (Key × Val) → List (Key × Val) → List (Key × Val)
  | selfE, [] => selfE
  | selfE, (k, v) :: rest => updateGoP (updateStepP selfE k v) rest
termination_by _ pending => sizeOf pending
decreasing_by
  all_goals simp only [List.cons.sizeOf_spec, Prod.mk.sizeOf_spec]
  all_goals omega

/-- One key of `update`: a node value replaces the entry with a copy
when the key is absent or holds a non-node, and merges recursively when
the key also holds a node; any other value is stored unconditionally
through `__setitem__`. -/
def updateStepP : List (Key × Val) → Key → Val → List (Key × Val)
  | selfE, k, Val.vnode oe =>
    (match lookupE selfE k with
     | some (Val.vnode se) => setE selfE k (Val.vnode (updateEntries se oe))
     | _ => setItemP selfE k (Val.vnode (copyEntries oe)))
  | selfE, k, v => setItemP selfE k v
termination_by _ _ v => sizeOf v + 1
decreasing_by
  all_goals simp only [Val.vnode.sizeOf_spec]
  all_goals omega

end

/-- The loop of `Settings.find_case`: `for k in self: if k.lower() ==
lowkey: return k`.  Iteration yields keys through `__iter__`; calling
`.lower()` on an integer key raises `AttributeError` (`int` has no
`lower`), so the first integer key reached before a match aborts the
scan.  Returns `some k` for the first matching key, `none` when the loop
finishes without a match. -/
def findCaseGo (low : String) : List Key → Except PyErr (Option Key)
  | [] => Except.ok none
  | Key.kint _ :: _ => Except.error PyErr.attributeError
  | Key.kstr s :: rest =>
    if pyLower s = low then Except.ok (some (Key.kstr s)) else findCaseGo low rest

/-- `Settings.find_case(key)`: compute `lowkey = key.lower()`, scan the
own keys in iteration order for one whose `.lower()` equals `lowkey`,
return it, or return `key` unchanged when no key matches. -/
def findCaseE (es : List (Key × Val)) (key : String) : Except PyErr Key :=
  match findCaseGo (pyLower key) (iterKeysE es) with
  | Except.error e => Except.error e
  | Except.ok (some k) => Except.ok k
  | Except.ok none => Except.ok (Key.kstr key)

/-- `Settings.__contains__` with an `ig` (case-insensitive wrapper) key:
resolve through `find_case`, then test membership. -/
def containsIgP (es : List (Key × Val)) (s : String) : Except PyErr Bool :=
  match findCaseE es s with
  | Except.error e => Except.error e
  | Except.ok k => Except.ok (containsE es k)

/-- `Settings.__getitem__` with an `ig` key: resolve through
`find_case`, then read (with `__missing__` auto-vivification on an
absent resolved key). -/
def getItemIgP (es : List (Key × Val)) (s : String) :
    Except PyErr (List (Key × Val) × Val) :=
  match findCaseE es s with
  | Except.error e => Except.error e
  | Except.ok k => Except.ok (getItemP es k)

/-- `Settings.__delitem__` with an `ig` key: resolve through
`find_case`, then `dict.__delitem__`, which raises `KeyError` when the
resolved key is absent. -/
def delItemIgP (es : List (Key × Val)) (s : String) :
    Except PyErr (List (Key × Val)) :=
  match findCaseE es s with
  | Except.error e => Except.error e
  | Except.ok k =>
    match lookupE es k with
    | none => Except.error PyErr.keyError
    | some _ => Except.ok (delE es k)

mutual

/-- Full-depth absence of raw mappings: no `vdict` anywhere in the value,
descending through nodes and through lists at every depth.  This is the
property the specification's no-raw-mapping invariant asserts for the
whole tree. -/
def noDictV : Val → Bool
  | Val.vdict _ => false
  | Val.vnode es => noDictE es
  | Val.vlist xs => noDictL xs
  | _ => true

/-- `noDictV` over the entries of a node or dict. -/
def noDictE : List (Key × Val) → Bool
  | [] => true
  | (_, v) :: rest => noDictV v && noDictE rest

/-- `noDictV` over the elements of a list. -/
def noDictL : List Val → Bool
  | [] => true
  | v :: rest => noDictV v && noDictL rest

end

mutual

/-- The shape actually guaranteed by `Settings.__init__`: every direct
value of the node is dict-free *at the depths the constructor visits* —
node values recursively satisfy the same property, list values have no
dict directly among their elements (and node elements are recursively
well-shaped), while elements of nested sub-lists are not inspected
(`__init__` does not descend into lists of lists). -/
def entriesOkB : List (Key × Val) → Bool
  | [] => true
  | (_, v) :: rest => valOkB v && entriesOkB rest

/-- Well-shapedness of a single stored value, as guaranteed by the
constructor (see `entriesOkB`). -/
def valOkB : Val → Bool
  | Val.vdict _ => false
  | Val.vnode es => entriesOkB es
  | Val.vlist xs => elemsOkB xs
  | _ => true

/-- Well-shapedness of the direct elements of a list value: no raw dict
element; node elements well-shaped; nested lists accepted unchecked. -/
def elemsOkB : List Val → Bool
  | [] => true
  | Val.vdict _ :: _ => false
  | Val.vnode es :: rest => entriesOkB es && elemsOkB rest
  | _ :: rest => elemsOkB rest

end

/-- Heap-model values: scalars, or a reference to a heap object.  Python
names and container slots hold references; scalars are modelled inline
because their identity is irrelevant to the verified claims. -/
inductive HVal where
  | hint (n : Int)
  | hstr (s : String)
  | href (a : Nat)
deriving DecidableEq

/-- Heap objects: `Settings` instances (with their entry list in
insertion order) and Python `list` objects.  Raw dicts are covered by
the pure model only; the heap model is used for identity and sharing of
`Settings` and `list` objects. -/
inductive Obj where
  | node (es : List (Key × HVal))
  | list (xs : List HVal)
deriving DecidableEq

/-- A heap: objects indexed by their address (position in the list).
Allocation appends; addresses are never reused. -/
structure Heap where
  objs : List Obj
deriving DecidableEq

/-- Dereference an address. -/
def hget (h : Heap) (a : Nat) : Option Obj := h.objs[a]?

/-- Overwrite the object at an (existing) address. -/
def hset (h : Heap) (a : Nat) (o : Obj) : Heap := ⟨h.objs.set a o⟩

/-- Allocate a fresh object, returning the new heap and its address. -/
def halloc (h : Heap) (o : Obj) : Heap × Nat := (⟨h.objs ++ [o]⟩, h.objs.length)

/-- `list.append` on a heap list object. -/
def listAppendH (h : Heap) (a : Nat) (v : HVal) : Option Heap :=
  match hget h a with
  | some (Obj.list xs) => some (hset h a (Obj.list (xs ++ [v])))
  | _ => none

mutual

/-- Heap-model `Settings(src)`: allocate a new node holding the
converted entries of the source.  Every recursive call consumes one unit
of fuel; `none` means the fuel bound was hit (never the case in the
finite runs verified below).  Address-allocation order is a model
artefact: the real interpreter allocates the `Settings` first and the
converted children afterwards, but the resulting object graph is the
same. -/
def constructH : Nat → Heap → List (Key × HVal) → Option (Heap × Nat)
  | 0, _, _ => none
  | n+1, h, src =>
    match constructEntriesH n h src with
    | none => none
    | some (h1, es) => some (halloc h1 (Obj.node es))

termination_by structural n => n
/-- The conversion loop of `Settings.__init__` over the source entries. -/
def constructEntriesH : Nat → Heap → List (Key × HVal) → Option (Heap × List (Key × HVal))
  | 0, _, _ => none
  | _+1, h, [] => some (h, [])
  | n+1, h, (k, v) :: rest =>
    match constructValH n h v with
    | none => none
    | some (h1, v1) =>
      match constructEntriesH n h1 rest with
      | none => none
      | some (h2, rest1) => some (h2, (k, v1) :: rest1)

termination_by structural n => n
/-- Conversion of one source value in `Settings.__init__`: a reference
to a `Settings`/dict is replaced by a reference to a freshly constructed
node; a reference to a list is replaced by a reference to a *new* list
whose dict-typed elements are wrapped; scalars are stored unchanged. -/
def constructValH : Nat → Heap → HVal → Option (Heap × HVal)
  | 0, _, _ => none
  | n+1, h, HVal.href a =>
    (match hget h a with
     | some (Obj.node es) =>
       match constructH n h es with
       | none => none
       | some (h1, b) => some (h1, HVal.href b)
     | some (Obj.list xs) =>
       match wrapElemsH n h xs with
       | none => none
       | some (h1, xs1) =>
         match halloc h1 (Obj.list xs1) with
         | (h2, b) => some (h2, HVal.href b)
     | none => none)
  | _+1, h, v => some (h, v)

termination_by structural n => n
/-- The element comprehension of `Settings.__init__` in the heap model:
references to `Settings`/dict objects are wrapped into fresh nodes,
every other element (scalars, references to lists) is kept as is. -/
def wrapElemsH : Nat → Heap → List HVal → Option (Heap × List HVal)
  | 0, _, _ => none
  | _+1, h, [] => some (h, [])
  | n+1, h, x :: rest =>
    match x with
    | HVal.href a =>
      (match hget h a with
       | some (Obj.node es) =>
         match constructH n h es with
         | none => none
         | some (h1, b) =>
           match wrapElemsH n h1 rest with
           | none => none
           | some (h2, rest1) => some (h2, HVal.href b :: rest1)
       | _ =>
         match wrapElemsH n h rest with
         | none => none
         | some (h1, rest1) => some (h1, x :: rest1))
    | _ =>
      match wrapElemsH n h rest with
      | none => none
      | some (h1, rest1) => some (h1, x :: rest1)

termination_by structural n => n
/-- Heap-model `Settings.__setitem__` on the node at `a` (key already
resolved): a value referencing a `Settings` object is first re-wrapped
through `Settings(value)` (the `isinstance(value, dict)` branch — note
that `Settings` instances pass the test), then the entry is stored with
dict semantics. -/
def setItemH : Nat → Heap → Nat → Key → HVal → Option Heap
  | 0, _, _, _, _ => none
  | n+1, h, a, k, v =>
    match hget h a with
    | some (Obj.node es) =>
      (match v with
       | HVal.href b =>
         (match hget h b with
          | some (Obj.node bes) =>
            match constructH n h bes with
            | none => none
            | some (h1, b1) =>
              match hget h1 a with
              | some (Obj.node es1) =>
                some (hset h1 a (Obj.node (setE es1 k (HVal.href b1))))
              | _ => none
          | _ => some (hset h a (Obj.node (setE es k v))))
       | _ => some (hset h a (Obj.node (setE es k v))))
    | _ => none

/-- Heap-model `Settings.__getitem__` on the node at `a` (key already
resolved): a present key returns its stored reference/value and leaves
the heap unchanged; a missing key runs `__missing__`: `self[name] =
Settings()` followed by `return self[name]`. -/
def getItemH : Nat → Heap → Nat → Key → Option (Heap × HVal)
  | 0, _, _, _ => none
  | n+1, h, a, k =>
    match hget h a with
    | some (Obj.node es) =>
      (match lookupE es k with
       | some v => some (h, v)
       | none =>
         match halloc h (Obj.node []) with
         | (h1, e) =>
           match setItemH n h1 a k (HVal.href e) with
           | none => none
           | some h2 =>
             match hget h2 a with
             | some (Obj.node es2) =>
               (match lookupE es2 k with
                | some v => some (h2, v)
                | none => none)
             | _ => none)
    | _ => none

/-- Heap-model `Settings.copy` of the node at `a`: `ret = Settings()`,
then for each key in iteration order store either a recursive copy (node
values) or the value itself (everything else) through `__setitem__`. -/
def copyH : Nat → Heap → Nat → Option (Heap × Nat)
  | 0, _, _ => none
  | n+1, h, a =>
    match hget h a with
    | some (Obj.node es) =>
      match halloc h (Obj.node []) with
      | (h1, r) => copyGoH n h1 r (sortEntriesB es)
    | _ => none

termination_by structural n => n
/-- The loop of `Settings.copy` over the iteration-ordered entries. -/
def copyGoH : Nat → Heap → Nat → List (Key × HVal) → Option (Heap × Nat)
  | 0, _, _, _ => none
  | _+1, h, r, [] => some (h, r)
  | n+1, h, r, (k, v) :: rest =>
    match v with
    | HVal.href b =>
      (match hget h b with
       | some (Obj.node _) =>
         (match copyH n h b with
          | none => none
          | some (h1, b1) =>
            match setItemH n h1 r k (HVal.href b1) with
            | none => none
            | some h2 => copyGoH n h2 r rest)
       | _ =>
         match setItemH n h r k v with
         | none => none
         | some h1 => copyGoH n h1 r rest)
    | _ =>
      match setItemH n h r k v with
      | none => none
      | some h1 => copyGoH n h1 r rest

termination_by structural n => n
/-- Heap-model `Settings.soft_update(other)` on nodes at `a` (self) and
`b` (other): iterate `other` in iteration order, apply the per-key step,
and `return self` — the returned address is `a` itself. -/
def softUpdateH : Nat → Heap → Nat → Nat → Option (Heap × Nat)
  | 0, _, _, _ => none
  | n+1, h, a, b =>
    match hget h b with
    | some (Obj.node oes) =>
      (match softUpdateGoH n h a (sortEntriesB oes) with
       | none => none
       | some h1 => some (h1, a))
    | _ => none

termination_by structural n => n
/-- The loop of `soft_update` over the pending entries of `other`. -/
def softUpdateGoH : Nat → Heap → Nat → List (Key × HVal) → Option Heap
  | 0, _, _, _ => none
  | _+1, h, _, [] => some h
  | n+1, h, a, (k, v) :: rest =>
    match softUpdateStepH n h a k v with
    | none => none
    | some h1 => softUpdateGoH n h1 a rest

termination_by structural n => n
/-- One key of `soft_update`: if `other[name]` is a `Settings`, copy it
in when absent, recurse when self also holds a `Settings`, do nothing
when self holds a non-node; otherwise store `other[name]` (by reference)
only when the key is absent. -/
def softUpdateStepH : Nat → Heap → Nat → Key → HVal → Option Heap
  | 0, _, _, _, _ => none
  | n+1, h, a, k, v =>
    match v with
    | HVal.href c =>
      (match hget h c with
       | some (Obj.node _) =>
         (match hget h a with
          | some (Obj.node ses) =>
            (match lookupE ses k with
             | none =>
               (match copyH n h c with
                | none => none
                | some (h1, c1) => setItemH n h1 a k (HVal.href c1))
             | some (HVal.href d) =>
               (match hget h d with
                | some (Obj.node _) =>
                  (match softUpdateH n h d c with
                   | none => none
                   | some (h1, _) => some h1)
                | _ => some h)
             | some _ => some h)
          | _ => none)
       | _ =>
         (match hget h a with
          | some (Obj.node ses) =>
            (match lookupE ses k with
             | some _ => some h
             | none => setItemH n h a k v)
          | _ => none))
    | _ =>
      match hget h a with
      | some (Obj.node ses) =>
        (match lookupE ses k with
         | some _ => some h
         | none => setItemH n h a k v)
      | _ => none

termination_by structural n => n
/-- Heap-model `Settings.update(other)` on nodes at `a` and `b`. -/
def updateH : Nat → Heap → Nat → Nat → Option Heap
  | 0, _, _, _ => none
  | n+1, h, a, b =>
    match hget h b with
    | some (Obj.node oes) => updateGoH n h a (sortEntriesB oes)
    | _ => none

termination_by structural n => n
/-- The loop of `update` over the pending entries of `other`. -/
def updateGoH : Nat → Heap → Nat → List (Key × HVal) → Option Heap
  | 0, _, _, _ => none
  | _+1, h, _, [] => some h
  | n+1, h, a, (k, v) :: rest =>
    match updateStepH n h a k v with
    | none => none
    | some h1 => updateGoH n h1 a rest

termination_by structural n => n
/-- One key of `update`: if `other[name]` is a `Settings`, recurse when
self holds a `Settings` under the key and otherwise store a copy; any
other value is stored unconditionally — *by reference*, through
`__setitem__`. -/
def updateStepH : Nat → Heap → Nat → Key → HVal → Option Heap
  | 0, _, _, _, _ => none
  | n+1, h, a, k, v =>
    match v with
    | HVal.href c =>
      (match hget h c with
       | some (Obj.node _) =>
         (match hget h a with
          | some (Obj.node ses) =>
            (match lookupE ses k with
             | some (HVal.href d) =>
               (match hget h d with
                | some (Obj.node _) => updateH n h d c
                | _ =>
                  match copyH n h c with
                  | none => none
                  | some (h1, c1) => setItemH n h1 a k (HVal.href c1))
             | _ =>
               match copyH n h c with
               | none => none
               | some (h1, c1) => setItemH n h1 a k (HVal.href c1))
          | _ => none)
       | _ => setItemH n h a k v)
    | _ => setItemH n h a k v

termination_by structural n => n
end

/-- `Settings.get_nested(key_tuple)` in the heap model: `s = self; for i
in key_tuple: s = s[i]`.  Indexing a non-`Settings` value raises
(`TypeError`-like); the model returns `none` there, as it also does for
the unmodelled case of integer-indexing a list object. -/
def getNestedH (n : Nat) : Heap → HVal → List Key → Option (Heap × HVal)
  | h, v, [] => some (h, v)
  | h, HVal.href a, k :: rest =>
    (match hget h a with
     | some (Obj.node _) =>
       match getItemH n h a k with
       | none => none
       | some (h1, v1) => getNestedH n h1 v1 rest
     | _ => none)
  | _, _, _ :: _ => none

/-- `Settings.set_nested(key_tuple, value)` in the heap model: walk
`key_tuple[:-1]` with `__getitem__` (vivifying missing branches), then
`__setitem__` the final key on the node reached. -/
def setNestedH (n : Nat) : Heap → HVal → List Key → HVal → Option Heap
  | _, _, [], _ => none
  | h, HVal.href a, [k], v => setItemH n h a k v
  | h, HVal.href a, k :: k2 :: rest, v =>
    (match hget h a with
     | some (Obj.node _) =>
       match getItemH n h a k with
       | none => none
       | some (h1, v1) => setNestedH n h1 v1 (k2 :: rest) v
     | _ => none)
  | _, _, _ :: _, _ => none

mutual

/-- Read the value graph reachable from a heap value back into a pure
`Val` tree (references dereferenced, nodes and lists expanded).  Used to
compare the observable contents of two stores. -/
def readVH : Nat → Heap → HVal → Option Val
  | 0, _, _ => none
  | _+1, _, HVal.hint i => some (Val.vint i)
  | _+1, _, HVal.hstr s => some (Val.vstr s)
  | n+1, h, HVal.href a =>
    match hget h a with
    | some (Obj.node es) =>
      (match readEntriesH n h es with
       | none => none
       | some es1 => some (Val.vnode es1))
    | some (Obj.list xs) =>
      (match readListH n h xs with
       | none => none
       | some xs1 => some (Val.vlist xs1))
    | none => none

termination_by structural n => n
/-- `readVH` over node entries. -/
def readEntriesH : Nat → Heap → List (Key × HVal) → Option (List (Key × Val))
  | 0, _, _ => none
  | _+1, _, [] => some []
  | n+1, h, (k, v) :: rest =>
    match readVH n h v with
    | none => none
    | some v1 =>
      match readEntriesH n h rest with
      | none => none
      | some rest1 => some ((k, v1) :: rest1)

termination_by structural n => n
/-- `readVH` over list elements. -/
def readListH : Nat → Heap → List HVal → Option (List Val)
  | 0, _, _ => none
  | _+1, _, [] => some []
  | n+1, h, v :: rest =>
    match readVH n h v with
    | none => none
    | some v1 =>
      match readListH n h rest with
      | none => none
      | some rest1 => some (v1 :: rest1)

termination_by structural n => n
end

/-- Equal code points mean equal characters. -/
theorem charToNatInj {a b : Char} (h : a.toNat = b.toNat) : a = b :=
  Char.ext (UInt32.ext h)

/-- `lexLt` is asymmetric. -/
theorem lexLt_asymm : ∀ a b : List Char, lexLt a b = true → lexLt b a = false := by
  intro a
  induction a with
  | nil =>
    intro b h
    cases b with
    | nil => simp [lexLt] at h
    | cons d bs => simp [lexLt]
  | cons c as ih =>
    intro b h
    cases b with
    | nil => simp [lexLt] at h
    | cons d bs =>
      simp only [lexLt] at h ⊢
      rcases Nat.lt_trichotomy c.toNat d.toNat with hlt | heq | hgt
      · rw [if_neg (Nat.lt_asymm hlt), if_pos hlt]
      · rw [if_neg (by omega), if_neg (by omega)] at h
        rw [if_neg (by omega), if_neg (by omega)]
        exact ih bs h
      · rw [if_neg (Nat.lt_asymm hgt), if_pos hgt] at h
        exact absurd h (by simp)

/-- `lexLt` is connex: two mutually non-smaller lists are equal. -/
theorem lexLt_connex : ∀ a b : List Char,
    lexLt a b = false → lexLt b a = false → a = b := by
  intro a
  induction a with
  | nil =>
    intro b h1 _
    cases b with
    | nil => rfl
    | cons d bs => simp [lexLt] at h1
  | cons c as ih =>
    intro b h1 h2
    cases b with
    | nil => simp [lexLt] at h2
    | cons d bs =>
      simp only [lexLt] at h1 h2
      rcases Nat.lt_trichotomy c.toNat d.toNat with hlt | heq | hgt
      · rw [if_pos hlt] at h1
        exact absurd h1 (by simp)
      · rw [if_neg (by omega), if_neg (by omega)] at h1 h2
        rw [charToNatInj heq, ih bs h1 h2]
      · rw [if_neg (Nat.lt_asymm hgt), if_pos hgt] at h2
        exact absurd h2 (by simp)

/-- `lexLt` is transitive. -/
theorem lexLt_trans : ∀ a b c : List Char,
    lexLt a b = true → lexLt b c = true → lexLt a c = true := by
  intro a
  induction a with
  | nil =>
    intro b c h1 h2
    cases b with
    | nil => simp [lexLt] at h1
    | cons y bs =>
      cases c with
      | nil => simp [lexLt] at h2
      | cons z cs => simp [lexLt]
  | cons x as ih =>
    intro b c h1 h2
    cases b with
    | nil => simp [lexLt] at h1
    | cons y bs =>
      cases c with
      | nil => simp [lexLt] at h2
      | cons z cs =>
        simp only [lexLt] at h1 h2 ⊢
        rcases Nat.lt_trichotomy x.toNat y.toNat with hxy | hxy | hxy <;>
          rcases Nat.lt_trichotomy y.toNat z.toNat with hyz | hyz | hyz
        · rw [if_pos (by omega)]
        · rw [if_pos (by omega)]
        · rw [if_neg (Nat.lt_asymm hyz), if_pos hyz] at h2
          exact absurd h2 (by simp)
        · rw [if_pos (by omega)]
        · rw [if_neg (by omega), if_neg (by omega)] at h1 h2 ⊢
          exact ih bs cs h1 h2
        · rw [if_neg (Nat.lt_asymm hyz), if_pos hyz] at h2
          exact absurd h2 (by simp)
        · rw [if_neg (Nat.lt_asymm hxy), if_pos hxy] at h1
          exact absurd h1 (by simp)
        · rw [if_neg (Nat.lt_asymm hxy), if_pos hxy] at h1
          exact absurd h1 (by simp)
        · rw [if_neg (Nat.lt_asymm hxy), if_pos hxy] at h1
          exact absurd h1 (by simp)

/-- `lexLt` is negatively transitive. -/
theorem lexLt_negTrans {a b c : List Char} (h1 : lexLt a b = false)
    (h2 : lexLt b c = false) : lexLt a c = false := by
  by_contra hac
  have hac : lexLt a c = true := by
    cases h : lexLt a c
    · exact absurd h hac
    · rfl
  by_cases hba : lexLt b a = true
  · have := lexLt_trans b a c hba hac
    rw [this] at h2
    exact absurd h2 (by simp)
  · have hba : lexLt b a = false := by
      cases h : lexLt b a
      · rfl
      · exact absurd h hba
    have := lexLt_connex a b h1 hba
    subst this
    rw [hac] at h2
    exact absurd h2 (by simp)

/-- Strings with equal character data are equal. -/
theorem strDataInj {a b : String} (h : a.data = b.data) : a = b := by
  cases a
  cases b
  exact congrArg String.mk (by simpa using h)

/-- `strLtB` is asymmetric. -/
theorem strLtB_asymm {a b : String} (h : strLtB a b = true) : strLtB b a = false :=
  lexLt_asymm _ _ h

/-- `strLtB` is negatively transitive. -/
theorem strLtB_negTrans {a b c : String} (h1 : strLtB a b = false)
    (h2 : strLtB b c = false) : strLtB a c = false :=
  lexLt_negTrans h1 h2

/-- `strLtB` is connex: mutually non-smaller strings are equal. -/
theorem strLtB_connex {a b : String} (h1 : strLtB a b = false)
    (h2 : strLtB b a = false) : a = b :=
  strDataInj (lexLt_connex _ _ h1 h2)

/-- `keyStrLtB` is asymmetric. -/
theorem keyStrLtB_asymm {a b : Key} (h : keyStrLtB a b = true) :
    keyStrLtB b a = false :=
  strLtB_asymm h

/-- `keyStrLtB` is negatively transitive. -/
theorem keyStrLtB_negTrans {a b c : Key} (h1 : keyStrLtB a b = false)
    (h2 : keyStrLtB b c = false) : keyStrLtB a c = false :=
  strLtB_negTrans h1 h2

/-- `keyLtB` is asymmetric (vacuously so across key kinds, where both
comparisons are `false`). -/
theorem keyLtB_asymm {a b : Key} (h : keyLtB a b = true) : keyLtB b a = false := by
  cases a <;> cases b <;> simp only [keyLtB] at h ⊢
  · exact strLtB_asymm h
  · simp at h ⊢
    omega

/-- `keyLtB` is negatively transitive on string keys. -/
theorem keyLtB_negTrans_str {a b c : String}
    (h1 : keyLtB (Key.kstr a) (Key.kstr b) = false)
    (h2 : keyLtB (Key.kstr b) (Key.kstr c) = false) :
    keyLtB (Key.kstr a) (Key.kstr c) = false := by
  simp only [keyLtB] at h1 h2 ⊢
  exact strLtB_negTrans h1 h2

/-- `keyLtB` is connex on string keys. -/
theorem keyLtB_connex_str {a b : String}
    (h1 : keyLtB (Key.kstr a) (Key.kstr b) = false)
    (h2 : keyLtB (Key.kstr b) (Key.kstr a) = false) : Key.kstr a = Key.kstr b := by
  simp only [keyLtB] at h1 h2
  rw [strLtB_connex h1 h2]

/-- `keyLtB` is negatively transitive on integer keys. -/
theorem keyLtB_negTrans_int {a b c : Int}
    (h1 : keyLtB (Key.kint a) (Key.kint b) = false)
    (h2 : keyLtB (Key.kint b) (Key.kint c) = false) :
    keyLtB (Key.kint a) (Key.kint c) = false := by
  simp only [keyLtB, decide_eq_false_iff_not] at h1 h2 ⊢
  omega

/-- `insertSorted` permutes inserting at the head. -/
theorem perm_insertSorted {β : Type} (lt : β → β → Bool) (a : β) :
    ∀ l : List β, List.Perm (insertSorted lt a l) (a :: l) := by
  intro l
  induction l with
  | nil => exact List.Perm.refl _
  | cons b t ih =>
    simp only [insertSorted]
    split
    · exact (ih.cons b).trans (List.Perm.swap a b t)
    · exact List.Perm.refl _

/-- `sortByB` is a permutation. -/
theorem perm_sortByB {β : Type} (lt : β → β → Bool) :
    ∀ l : List β, List.Perm (sortByB lt l) l := by
  intro l
  induction l with
  | nil => exact List.Perm.refl _
  | cons a t ih =>
    simp only [sortByB]
    exact (perm_insertSorted lt a _).trans (ih.cons a)

/-- `sortKeys` is a permutation. -/
theorem perm_sortKeys (ks : List Key) : List.Perm (sortKeys ks) ks := by
  unfold sortKeys
  split
  · exact perm_sortByB _ ks
  · exact perm_sortByB _ ks

/-- `sortEntriesB` is a permutation. -/
theorem perm_sortEntriesB {β : Type} (es : List (Key × β)) :
    List.Perm (sortEntriesB es) es := by
  unfold sortEntriesB
  split
  · exact perm_sortByB _ es
  · exact perm_sortByB _ es

/-- Membership in `insertSorted`. -/
theorem mem_insertSorted {β : Type} {lt : β → β → Bool} {a y : β} {l : List β}
    (h : y ∈ insertSorted lt a l) : y = a ∨ y ∈ l := by
  have := (perm_insertSorted lt a l).mem_iff.mp h
  simpa using this

/-- Ascending (with respect to a strict comparison `lt`): no later
element is strictly below an earlier one.  This is the sortedness
produced by Python's `sorted`. -/
def ascB {β : Type} (lt : β → β → Bool) (l : List β) : Prop :=
  List.Pairwise (fun x y => lt y x = false) l

/-- `insertSorted` preserves ascending order, with asymmetry and
negative transitivity required only on the elements involved. -/
theorem ascB_insertSorted {β : Type} {lt : β → β → Bool} {a : β} :
    ∀ {l : List β}, ascB lt l →
    (∀ x ∈ a :: l, ∀ y ∈ a :: l, lt x y = true → lt y x = false) →
    (∀ x ∈ a :: l, ∀ y ∈ a :: l, ∀ z ∈ a :: l,
      lt x y = false → lt y z = false → lt x z = false) →
    ascB lt (insertSorted lt a l) := by
  intro l
  induction l with
  | nil =>
    intro _ _ _
    simp [insertSorted, ascB]
  | cons b t ih =>
    intro h hasym hneg
    simp only [ascB, List.pairwise_cons] at h
    obtain ⟨h1, h2⟩ := h
    simp only [insertSorted]
    split
    · rename_i hba
      simp only [ascB, List.pairwise_cons]
      refine ⟨?_, ?_⟩
      · intro y hy
        rcases mem_insertSorted hy with rfl | hy
        · exact hasym b (by simp) y (by simp) hba
        · exact h1 y hy
      · have hsub : ∀ w : β, w ∈ a :: t → w ∈ a :: b :: t := by
          intro w hw
          rcases List.mem_cons.mp hw with rfl | hw
          · simp
          · simp [hw]
        exact ih h2 (fun x hx y hy => hasym x (hsub x hx) y (hsub y hy))
          (fun x hx y hy z hz => hneg x (hsub x hx) y (hsub y hy) z (hsub z hz))
    · rename_i hba
      have hba2 : lt b a = false := by
        cases hh : lt b a
        · rfl
        · exact absurd hh hba
      simp only [ascB, List.pairwise_cons]
      refine ⟨?_, ?_, ?_⟩
      · intro y hy
        rcases List.mem_cons.mp hy with rfl | hy
        · exact hba2
        · exact hneg y (by simp [hy]) b (by simp) a (by simp) (h1 y hy) hba2
      · exact h1
      · exact h2

/-- `sortByB` produces an ascending list, with asymmetry and negative
transitivity required only on the elements of the input. -/
theorem ascB_sortByB {β : Type} {lt : β → β → Bool} :
    ∀ {l : List β},
    (∀ x ∈ l, ∀ y ∈ l, lt x y = true → lt y x = false) →
    (∀ x ∈ l, ∀ y ∈ l, ∀ z ∈ l, lt x y = false → lt y z = false → lt x z = false) →
    ascB lt (sortByB lt l) := by
  intro l
  induction l with
  | nil =>
    intro _ _
    simp [sortByB, ascB]
  | cons a t ih =>
    intro hasym hneg
    simp only [sortByB]
    have hsubm : ∀ w : β, w ∈ a :: sortByB lt t → w ∈ a :: t := by
      intro w hw
      rcases List.mem_cons.mp hw with rfl | hw
      · simp
      · simp [(perm_sortByB lt t).mem_iff.mp hw]
    refine ascB_insertSorted ?_ ?_ ?_
    · exact ih
        (fun x hx y hy => hasym x (by simp [hx]) y (by simp [hy]))
        (fun x hx y hy z hz => hneg x (by simp [hx]) y (by simp [hy]) z (by simp [hz]))
    · exact fun x hx y hy => hasym x (hsubm x hx) y (hsubm y hy)
    · exact fun x hx y hy z hz =>
        hneg x (hsubm x hx) y (hsubm y hy) z (hsubm z hz)

/-- Two ascending lists that are permutations of each other are equal
(connexity required only on the elements). -/
theorem eq_of_ascB_perm {β : Type} {lt : β → β → Bool} :
    ∀ (l1 l2 : List β),
    (∀ x ∈ l1, ∀ y ∈ l1, lt x y = false → lt y x = false → x = y) →
    ascB lt l1 → ascB lt l2 → List.Perm l1 l2 → l1 = l2 := by
  intro l1
  induction l1 with
  | nil =>
    intro l2 _ _ _ hp
    exact (hp.nil_eq).symm |> fun h => h ▸ rfl
  | cons a t1 ih =>
    intro l2 hconn h1 h2 hp
    cases l2 with
    | nil => exact absurd hp.symm.nil_eq (by simp)
    | cons b t2 =>
      simp only [ascB, List.pairwise_cons] at h1 h2
      have hab : a = b := by
        by_cases heq : a = b
        · exact heq
        · have ha2 : a ∈ b :: t2 := hp.mem_iff.mp (by simp)
          have hb1 : b ∈ a :: t1 := hp.mem_iff.mpr (by simp)
          have ha2' : a ∈ t2 := by
            rcases List.mem_cons.mp ha2 with rfl | h
            · exact absurd rfl heq
            · exact h
          have hb1' : b ∈ t1 := by
            rcases List.mem_cons.mp hb1 with h | h
            · exact absurd h.symm heq
            · exact h
          have hba : lt b a = false := h1.1 b hb1'
          have hab2 : lt a b = false := h2.1 a ha2'
          exact hconn a (by simp) b (by simp [hb1']) hab2 hba
      subst hab
      have ht : List.Perm t1 t2 := hp.cons_inv
      have : t1 = t2 := by
        refine ih t2 ?_ h1.2 h2.2 ht
        exact fun x hx y hy => hconn x (by simp [hx]) y (by simp [hy])
      rw [this]

/-- Ascending order of `sortKeys` output under the string-form
comparison, for arbitrary key lists that take the fallback branch. -/
theorem ascB_sortKeys_mixed {ks : List Key} (h : mixedKeys ks = true) :
    ascB keyStrLtB (sortKeys ks) := by
  unfold sortKeys
  rw [if_pos h]
  exact ascB_sortByB
    (fun x _ y _ hxy => keyStrLtB_asymm hxy)
    (fun x _ y _ z _ h1 h2 => keyStrLtB_negTrans h1 h2)

/-- All keys of the list are strings. -/
def allStrKeys (ks : List Key) : Prop := ∀ k ∈ ks, keyIsStr k = true

/-- A string key is a `kstr`. -/
theorem keyIsStr_exists {k : Key} (h : keyIsStr k = true) : ∃ s, k = Key.kstr s := by
  cases k with
  | kstr s => exact ⟨s, rfl⟩
  | kint n => simp [keyIsStr] at h

/-- On an all-string key list, `sortKeys` takes the native branch and
produces an ascending list under `keyLtB`. -/
theorem ascB_sortKeys_str {ks : List Key} (h : allStrKeys ks) :
    ascB keyLtB (sortKeys ks) := by
  unfold sortKeys
  split
  · rename_i hmix
    exfalso
    simp only [mixedKeys, Bool.and_eq_true, List.any_eq_true] at hmix
    obtain ⟨-, k, hk, hkint⟩ := hmix
    obtain ⟨s, rfl⟩ := keyIsStr_exists (h k hk)
    simp [keyIsInt] at hkint
  · refine ascB_sortByB ?_ ?_
    · intro x _ y _ hxy
      exact keyLtB_asymm hxy
    · intro x hx y hy z hz h1 h2
      obtain ⟨sx, rfl⟩ := keyIsStr_exists (h x hx)
      obtain ⟨sy, rfl⟩ := keyIsStr_exists (h y hy)
      obtain ⟨sz, rfl⟩ := keyIsStr_exists (h z hz)
      exact keyLtB_negTrans_str h1 h2

/-- All keys of the list are integers. -/
def allIntKeys (ks : List Key) : Prop := ∀ k ∈ ks, keyIsInt k = true

/-- An integer key is a `kint`. -/
theorem keyIsInt_exists {k : Key} (h : keyIsInt k = true) : ∃ n, k = Key.kint n := by
  cases k with
  | kstr s => simp [keyIsInt] at h
  | kint n => exact ⟨n, rfl⟩

/-- On an all-integer key list, `sortKeys` takes the native branch and
produces an ascending list under `keyLtB` (the numeric order). -/
theorem ascB_sortKeys_int {ks : List Key} (h : allIntKeys ks) :
    ascB keyLtB (sortKeys ks) := by
  unfold sortKeys
  split
  · rename_i hmix
    exfalso
    simp only [mixedKeys, Bool.and_eq_true, List.any_eq_true] at hmix
    obtain ⟨⟨k, hk, hkstr⟩, -⟩ := hmix
    obtain ⟨n, rfl⟩ := keyIsInt_exists (h k hk)
    simp [keyIsStr] at hkstr
  · refine ascB_sortByB ?_ ?_
    · intro x _ y _ hxy
      exact keyLtB_asymm hxy
    · intro x hx y hy z hz h1 h2
      obtain ⟨nx, rfl⟩ := keyIsInt_exists (h x hx)
      obtain ⟨ny, rfl⟩ := keyIsInt_exists (h y hy)
      obtain ⟨nz, rfl⟩ := keyIsInt_exists (h z hz)
      exact keyLtB_negTrans_int h1 h2

/-- On an all-string key list, `sortKeys` is determined by the key
*set*: two permuted all-string key lists sort identically. -/
theorem sortKeys_perm_eq {ks1 ks2 : List Key} (hs : allStrKeys ks1)
    (hp : List.Perm ks1 ks2) : sortKeys ks1 = sortKeys ks2 := by
  have hs2 : allStrKeys ks2 := fun k hk => hs k (hp.mem_iff.mpr hk)
  refine eq_of_ascB_perm _ _ ?_ (ascB_sortKeys_str hs) (ascB_sortKeys_str hs2) ?_
  · intro x hx y hy h1 h2
    have hx' : x ∈ ks1 := (perm_sortKeys ks1).mem_iff.mp hx
    have hy' : y ∈ ks1 := (perm_sortKeys ks1).mem_iff.mp hy
    obtain ⟨sx, rfl⟩ := keyIsStr_exists (hs x hx')
    obtain ⟨sy, rfl⟩ := keyIsStr_exists (hs y hy')
    exact keyLtB_connex_str h1 h2
  · exact (perm_sortKeys ks1).trans (hp.trans (perm_sortKeys ks2).symm)

/-- Lookup after `setE` at the written key. -/
theorem lookupE_setE_self {β : Type} (es : List (Key × β)) (k : Key) (v : β) :
    lookupE (setE es k v) k = some v := by
  induction es with
  | nil => simp [setE, lookupE]
  | cons e rest ih =>
    obtain ⟨k1, v1⟩ := e
    simp only [setE]
    split
    · rename_i hk
      simp [lookupE, hk]
    · simp only [lookupE]
      rename_i hk
      rw [if_neg hk]
      exact ih

/-- Lookup after `setE` at a different key. -/
theorem lookupE_setE_ne {β : Type} {es : List (Key × β)} {k j : Key} (v : β)
    (h : j ≠ k) : lookupE (setE es k v) j = lookupE es j := by
  induction es with
  | nil =>
    simp only [setE, lookupE]
    rw [if_neg (fun hh : k = j => h hh.symm)]
  | cons e rest ih =>
    obtain ⟨k1, v1⟩ := e
    simp only [setE]
    split
    · rename_i hk
      subst hk
      simp only [lookupE]
      rw [if_neg (fun hh : k1 = j => h hh.symm), if_neg (fun hh : k1 = j => h hh.symm)]
    · simp only [lookupE]
      split
      · rfl
      · exact ih

/-- A successful lookup exhibits a member entry. -/
theorem lookupE_mem {β : Type} {es : List (Key × β)} {k : Key} {v : β}
    (h : lookupE es k = some v) : (k, v) ∈ es := by
  induction es with
  | nil => simp [lookupE] at h
  | cons e rest ih =>
    obtain ⟨k1, v1⟩ := e
    simp only [lookupE] at h
    split at h
    · rename_i hk
      cases h
      subst hk
      simp
    · simp [ih h]

/-- On a duplicate-free entry list, a member entry is found by lookup. -/
theorem lookupE_of_mem_nodup {β : Type} {es : List (Key × β)} {k : Key} {v : β}
    (hm : (k, v) ∈ es) (hn : (es.map Prod.fst).Nodup) : lookupE es k = some v := by
  induction es with
  | nil => simp at hm
  | cons e rest ih =>
    obtain ⟨k1, v1⟩ := e
    simp only [List.map_cons, List.nodup_cons] at hn
    rcases List.mem_cons.mp hm with he | hm'
    · cases he
      simp [lookupE]
    · have hne : k1 ≠ k := by
        intro hk
        subst hk
        exact hn.1 (List.mem_map_of_mem Prod.fst hm')
      simp only [lookupE]
      rw [if_neg hne]
      exact ih hm' hn.2

/-- `lookupE` is `none` exactly when the key is not among the entry keys. -/
theorem lookupE_eq_none {β : Type} {es : List (Key × β)} {k : Key}
    (h : k ∉ es.map Prod.fst) : lookupE es k = none := by
  induction es with
  | nil => rfl
  | cons e rest ih =>
    obtain ⟨k1, v1⟩ := e
    simp only [List.map_cons, List.mem_cons] at h
    push_neg at h
    simp only [lookupE]
    rw [if_neg (fun hh : k1 = k => h.1 hh.symm)]
    exact ih h.2

/-- A failed lookup means the key is absent. -/
theorem not_mem_of_lookupE_none {β : Type} {es : List (Key × β)} {k : Key}
    (h : lookupE es k = none) : k ∉ es.map Prod.fst := by
  induction es with
  | nil => simp
  | cons e rest ih =>
    obtain ⟨k1, v1⟩ := e
    simp only [lookupE] at h
    split at h
    · cases h
    · rename_i hne
      simp only [List.map_cons, List.mem_cons]
      push_neg
      exact ⟨fun hh => hne hh.symm, ih h⟩

/-- Is the value a `Settings` node? (`isinstance(v, Settings)`.) -/
def isNodeV : Val → Bool
  | Val.vnode _ => true
  | _ => false

/-- The value observed under a key after one `soft_update` step touching
that key, as a function of the previous value under the key. -/
def suStepSpec : Option Val → Val → Option Val
  | cur, Val.vnode oe =>
    (match cur with
     | none => some (Val.vnode (constructEntries (copyEntries oe)))
     | some (Val.vnode se) => some (Val.vnode (softUpdateEntries se oe))
     | some w => some w)
  | some w, _ => some w
  | none, v => some (setItemWrap v)

/-- The value observed under a key after one `update` step touching that
key. -/
def updStepSpec : Option Val → Val → Option Val
  | cur, Val.vnode oe =>
    (match cur with
     | some (Val.vnode se) => some (Val.vnode (updateEntries se oe))
     | _ => some (Val.vnode (constructEntries (copyEntries oe))))
  | _, v => some (setItemWrap v)

/-- The value stored by `copy` for one source value: node values are
recursively copied (and re-wrapped by `__setitem__`), all other values
are stored through `__setitem__` unchanged. -/
def copySpecV : Val → Val
  | Val.vnode d => Val.vnode (constructEntries (copyEntries d))
  | v => setItemWrap v

/-- A `soft_update` step touching key `k` does not change the value
observed under any other key. -/
theorem softUpdateStepP_lookup_ne (selfE : List (Key × Val)) (k : Key) (v : Val)
    {j : Key} (h : j ≠ k) :
    lookupE (softUpdateStepP selfE k v) j = lookupE selfE j := by
  cases v <;> simp only [softUpdateStepP] <;>
    rcases hcur : lookupE selfE k with - | w
  case vnode.none => exact lookupE_setE_ne _ h
  case vnode.some =>
    cases w <;> simp only []
    case vnode => exact lookupE_setE_ne _ h
  all_goals
    first
    | exact lookupE_setE_ne _ h
    | rfl

/-- The value observed under `k` after a `soft_update` step at `k`. -/
theorem softUpdateStepP_lookup_self (selfE : List (Key × Val)) (k : Key) (v : Val) :
    lookupE (softUpdateStepP selfE k v) k = suStepSpec (lookupE selfE k) v := by
  cases v <;> simp only [softUpdateStepP, suStepSpec] <;>
    rcases hcur : lookupE selfE k with - | w
  case vnode.none => exact lookupE_setE_self _ _ _
  case vnode.some =>
    cases w <;> simp only []
    case vnode => exact lookupE_setE_self _ _ _
    all_goals exact hcur
  all_goals
    first
    | exact lookupE_setE_self _ _ _
    | exact hcur

/-- An `update` step touching key `k` does not change the value observed
under any other key. -/
theorem updateStepP_lookup_ne (selfE : List (Key × Val)) (k : Key) (v : Val)
    {j : Key} (h : j ≠ k) :
    lookupE (updateStepP selfE k v) j = lookupE selfE j := by
  cases v <;> simp only [updateStepP] <;>
    rcases hcur : lookupE selfE k with - | w
  case vnode.none => exact lookupE_setE_ne _ h
  case vnode.some =>
    cases w <;> simp only []
    all_goals exact lookupE_setE_ne _ h
  all_goals exact lookupE_setE_ne _ h

/-- The value observed under `k` after an `update` step at `k`. -/
theorem updateStepP_lookup_self (selfE : List (Key × Val)) (k : Key) (v : Val) :
    lookupE (updateStepP selfE k v) k = updStepSpec (lookupE selfE k) v := by
  cases v <;> simp only [updateStepP, updStepSpec] <;>
    rcases hcur : lookupE selfE k with - | w
  case vnode.none => exact lookupE_setE_self _ _ _
  case vnode.some =>
    cases w <;> simp only []
    all_goals exact lookupE_setE_self _ _ _
  all_goals exact lookupE_setE_self _ _ _

/-- The `soft_update` loop does not change the value observed under a
key that does not occur among the pending entries. -/
theorem softUpdateGoP_lookup_ne :
    ∀ (pending selfE : List (Key × Val)) (k : Key),
    k ∉ pending.map Prod.fst →
    lookupE (softUpdateGoP selfE pending) k = lookupE selfE k := by
  intro pending
  induction pending with
  | nil =>
    intro selfE k _
    simp [softUpdateGoP]
  | cons e rest ih =>
    intro selfE k hk
    obtain ⟨k1, v1⟩ := e
    simp only [List.map_cons, List.mem_cons] at hk
    push_neg at hk
    simp only [softUpdateGoP]
    rw [ih _ k hk.2]
    exact softUpdateStepP_lookup_ne selfE k1 v1 hk.1

/-- The value observed under a pending key after the `soft_update` loop,
on duplicate-free pending entries. -/
theorem softUpdateGoP_lookup_mem :
    ∀ (pending selfE : List (Key × Val)) (k : Key) (v : Val),
    (pending.map Prod.fst).Nodup → (k, v) ∈ pending →
    lookupE (softUpdateGoP selfE pending) k = suStepSpec (lookupE selfE k) v := by
  intro pending
  induction pending with
  | nil =>
    intro selfE k v _ hm
    simp at hm
  | cons e rest ih =>
    intro selfE k v hn hm
    obtain ⟨k1, v1⟩ := e
    simp only [List.map_cons, List.nodup_cons] at hn
    simp only [softUpdateGoP]
    rcases List.mem_cons.mp hm with he | hm'
    · cases he
      rw [softUpdateGoP_lookup_ne rest _ k hn.1]
      exact softUpdateStepP_lookup_self selfE k v
    · have hne : k ≠ k1 := by
        intro hk
        subst hk
        exact hn.1 (List.mem_map_of_mem Prod.fst hm')
      rw [ih _ k v hn.2 hm', softUpdateStepP_lookup_ne selfE k1 v1 hne]

/-- The `update` loop does not change the value observed under a key
not occurring among the pending entries. -/
theorem updateGoP_lookup_ne :
    ∀ (pending selfE : List (Key × Val)) (k : Key),
    k ∉ pending.map Prod.fst →
    lookupE (updateGoP selfE pending) k = lookupE selfE k := by
  intro pending
  induction pending with
  | nil =>
    intro selfE k _
    simp [updateGoP]
  | cons e rest ih =>
    intro selfE k hk
    obtain ⟨k1, v1⟩ := e
    simp only [List.map_cons, List.mem_cons] at hk
    push_neg at hk
    simp only [updateGoP]
    rw [ih _ k hk.2]
    exact updateStepP_lookup_ne selfE k1 v1 hk.1

/-- The value observed under a pending key after the `update` loop, on
duplicate-free pending entries. -/
theorem updateGoP_lookup_mem :
    ∀ (pending selfE : List (Key × Val)) (k : Key) (v : Val),
    (pending.map Prod.fst).Nodup → (k, v) ∈ pending →
    lookupE (updateGoP selfE pending) k = updStepSpec (lookupE selfE k) v := by
  intro pending
  induction pending with
  | nil =>
    intro selfE k v _ hm
    simp at hm
  | cons e rest ih =>
    intro selfE k v hn hm
    obtain ⟨k1, v1⟩ := e
    simp only [List.map_cons, List.nodup_cons] at hn
    simp only [updateGoP]
    rcases List.mem_cons.mp hm with he | hm'
    · cases he
      rw [updateGoP_lookup_ne rest _ k hn.1]
      exact updateStepP_lookup_self selfE k v
    · have hne : k ≠ k1 := by
        intro hk
        subst hk
        exact hn.1 (List.mem_map_of_mem Prod.fst hm')
      rw [ih _ k v hn.2 hm', updateStepP_lookup_ne selfE k1 v1 hne]

/-- Keys of the iteration-ordered entries are a permutation of the
original keys. -/
theorem perm_map_fst_sortEntriesB {β : Type} (es : List (Key × β)) :
    List.Perm ((sortEntriesB es).map Prod.fst) (es.map Prod.fst) :=
  (perm_sortEntriesB es).map Prod.fst

/-- The value observed under any key after `soft_update` with a
`Settings` argument, on duplicate-free `other` entries: an absent key of
`other` leaves the value unchanged, a present one applies the per-key
step to the previous value. -/
theorem softUpdateEntries_lookup (selfE otherE : List (Key × Val)) (k : Key)
    (hn : (otherE.map Prod.fst).Nodup) :
    lookupE (softUpdateEntries selfE otherE) k =
      (match lookupE otherE k with
       | none => lookupE selfE k
       | some v => suStepSpec (lookupE selfE k) v) := by
  rw [softUpdateEntries]
  rcases hk : lookupE otherE k with - | v
  · refine softUpdateGoP_lookup_ne _ _ _ ?_
    intro hmem
    exact not_mem_of_lookupE_none hk
      ((perm_map_fst_sortEntriesB otherE).mem_iff.mp hmem)
  · refine softUpdateGoP_lookup_mem _ _ _ _ ?_ ?_
    · exact (perm_map_fst_sortEntriesB otherE).nodup_iff.mpr hn
    · exact (perm_sortEntriesB otherE).mem_iff.mpr (lookupE_mem hk)

/-- The value observed under any key after `soft_update` with a *plain
dict* argument, on duplicate-free `other` entries. -/
theorem softUpdateDictP_lookup (selfE otherE : List (Key × Val)) (k : Key)
    (hn : (otherE.map Prod.fst).Nodup) :
    lookupE (softUpdateDictP selfE otherE) k =
      (match lookupE otherE k with
       | none => lookupE selfE k
       | some v => suStepSpec (lookupE selfE k) v) := by
  rw [softUpdateDictP]
  rcases hk : lookupE otherE k with - | v
  · exact softUpdateGoP_lookup_ne _ _ _ (not_mem_of_lookupE_none hk)
  · exact softUpdateGoP_lookup_mem _ _ _ _ hn (lookupE_mem hk)

/-- The value observed under any key after `update` with a `Settings`
argument, on duplicate-free `other` entries. -/
theorem updateEntries_lookup (selfE otherE : List (Key × Val)) (k : Key)
    (hn : (otherE.map Prod.fst).Nodup) :
    lookupE (updateEntries selfE otherE) k =
      (match lookupE otherE k with
       | none => lookupE selfE k
       | some v => updStepSpec (lookupE selfE k) v) := by
  rw [updateEntries]
  rcases hk : lookupE otherE k with - | v
  · refine updateGoP_lookup_ne _ _ _ ?_
    intro hmem
    exact not_mem_of_lookupE_none hk
      ((perm_map_fst_sortEntriesB otherE).mem_iff.mp hmem)
  · refine updateGoP_lookup_mem _ _ _ _ ?_ ?_
    · exact (perm_map_fst_sortEntriesB otherE).nodup_iff.mpr hn
    · exact (perm_sortEntriesB otherE).mem_iff.mpr (lookupE_mem hk)

/-- The `copy` loop stores exactly its pending keys; another key keeps
whatever the accumulator holds. -/
theorem copyGoP_lookup_ne :
    ∀ (pending ret : List (Key × Val)) (k : Key),
    k ∉ pending.map Prod.fst →
    lookupE (copyGoP ret pending) k = lookupE ret k := by
  intro pending
  induction pending with
  | nil =>
    intro ret k _
    simp [copyGoP]
  | cons e rest ih =>
    intro ret k hk
    obtain ⟨k1, v1⟩ := e
    simp only [List.map_cons, List.mem_cons] at hk
    push_neg at hk
    cases v1 <;> simp only [copyGoP] <;> rw [ih _ k hk.2] <;>
      exact lookupE_setE_ne _ hk.1

/-- The value observed under a pending key after the `copy` loop, on
duplicate-free pending entries. -/
theorem copyGoP_lookup_mem :
    ∀ (pending ret : List (Key × Val)) (k : Key) (v : Val),
    (pending.map Prod.fst).Nodup → (k, v) ∈ pending →
    lookupE (copyGoP ret pending) k = some (copySpecV v) := by
  intro pending
  induction pending with
  | nil =>
    intro ret k v _ hm
    simp at hm
  | cons e rest ih =>
    intro ret k v hn hm
    obtain ⟨k1, v1⟩ := e
    simp only [List.map_cons, List.nodup_cons] at hn
    rcases List.mem_cons.mp hm with he | hm'
    · cases he
      cases v <;> simp only [copyGoP] <;> rw [copyGoP_lookup_ne rest _ k hn.1] <;>
        simp [setItemP, lookupE_setE_self, copySpecV, setItemWrap]
    · have hne : k ≠ k1 := by
        intro hk
        subst hk
        exact hn.1 (List.mem_map_of_mem Prod.fst hm')
      cases v1 <;> simp only [copyGoP] <;> rw [ih _ k v hn.2 hm']

/-- The value observed under any key of a `copy`: same keys, node values
recursively copied, other values stored through `__setitem__`. -/
theorem copyEntries_lookup (es : List (Key × Val)) (k : Key)
    (hn : (es.map Prod.fst).Nodup) :
    lookupE (copyEntries es) k = (lookupE es k).map copySpecV := by
  rw [copyEntries]
  rcases hk : lookupE es k with - | v
  · rw [copyGoP_lookup_ne _ _ _ (fun hmem => not_mem_of_lookupE_none hk
      ((perm_map_fst_sortEntriesB es).mem_iff.mp hmem))]
    rfl
  · rw [copyGoP_lookup_mem _ _ _ v
      ((perm_map_fst_sortEntriesB es).nodup_iff.mpr hn)
      ((perm_sortEntriesB es).mem_iff.mpr (lookupE_mem hk))]
    rfl

/-- The guaranteed shape of constructed trees, by strong induction on
size: every value placed by the constructor is dict-free at the visited
depths. -/
theorem constructOkAux : ∀ n : Nat,
    (∀ v : Val, sizeOf v < n → valOkB (constructTop v) = true) ∧
    (∀ es : List (Key × Val), sizeOf es < n → entriesOkB (constructEntries es) = true) ∧
    (∀ xs : List Val, sizeOf xs < n → elemsOkB (wrapElems xs) = true) := by
  intro n
  induction n with
  | zero =>
    refine ⟨fun v hv => ?_, fun es hes => ?_, fun xs hxs => ?_⟩ <;> omega
  | succ n ih =>
    refine ⟨?_, ?_, ?_⟩
    · intro v hv
      cases v with
      | vint m => simp [constructTop, valOkB]
      | vstr s => simp [constructTop, valOkB]
      | vdict d =>
        simp only [constructTop, valOkB]
        refine ih.2.1 d ?_
        simp only [Val.vdict.sizeOf_spec] at hv
        omega
      | vnode d =>
        simp only [constructTop, valOkB]
        refine ih.2.1 d ?_
        simp only [Val.vnode.sizeOf_spec] at hv
        omega
      | vlist xs =>
        simp only [constructTop, valOkB]
        refine ih.2.2 xs ?_
        simp only [Val.vlist.sizeOf_spec] at hv
        omega
    · intro es hes
      cases es with
      | nil => simp [constructEntries, entriesOkB]
      | cons e rest =>
        obtain ⟨k, v⟩ := e
        simp only [List.cons.sizeOf_spec, Prod.mk.sizeOf_spec] at hes
        have hk1 : 1 ≤ sizeOf k := by
          cases k <;> simp
        have hv1 : 1 ≤ sizeOf v := by
          cases v <;> simp
        simp only [constructEntries, entriesOkB, Bool.and_eq_true]
        exact ⟨ih.1 v (by omega), ih.2.1 rest (by omega)⟩
    · intro xs hxs
      cases xs with
      | nil => simp [wrapElems, elemsOkB]
      | cons v rest =>
        simp only [List.cons.sizeOf_spec] at hxs
        have hv1 : 1 ≤ sizeOf v := by
          cases v <;> simp
        simp only [wrapElems]
        cases v with
        | vint m => simp only [wrapElem, elemsOkB]; exact ih.2.2 rest (by omega)
        | vstr s => simp only [wrapElem, elemsOkB]; exact ih.2.2 rest (by omega)
        | vlist ys => simp only [wrapElem, elemsOkB]; exact ih.2.2 rest (by omega)
        | vdict d =>
          simp only [wrapElem, elemsOkB, Bool.and_eq_true]
          refine ⟨ih.2.1 d ?_, ih.2.2 rest (by omega)⟩
          simp only [Val.vdict.sizeOf_spec] at hxs
          omega
        | vnode d =>
          simp only [wrapElem, elemsOkB, Bool.and_eq_true]
          refine ⟨ih.2.1 d ?_, ih.2.2 rest (by omega)⟩
          simp only [Val.vnode.sizeOf_spec] at hxs
          omega

/-- `Settings.__init__` produces a well-shaped tree. -/
theorem constructEntries_ok (es : List (Key × Val)) :
    entriesOkB (constructEntries es) = true :=
  (constructOkAux (sizeOf es + 1)).2.1 es (by omega)

/-- `entriesOkB` is preserved by storing a well-shaped value. -/
theorem entriesOkB_setE {es : List (Key × Val)} {k : Key} {v : Val}
    (hes : entriesOkB es = true) (hv : valOkB v = true) :
    entriesOkB (setE es k v) = true := by
  induction es with
  | nil => simp [setE, entriesOkB, hv]
  | cons e rest ih =>
    obtain ⟨k1, v1⟩ := e
    simp only [entriesOkB, Bool.and_eq_true] at hes
    simp only [setE]
    split
    · simp [entriesOkB, hv, hes.2]
    · simp only [entriesOkB, Bool.and_eq_true]
      exact ⟨hes.1, ih hes.2⟩

/-- The key the `find_case` loop would return on an all-string key
sequence: the first key whose lowered form matches. -/
def firstLowMatch (low : String) : List Key → Option Key
  | [] => none
  | Key.kstr s :: rest =>
    if pyLower s = low then some (Key.kstr s) else firstLowMatch low rest
  | Key.kint _ :: rest => firstLowMatch low rest

/-- On an all-string key sequence the `find_case` loop never raises and
returns the first match. -/
theorem findCaseGo_allStr (low : String) :
    ∀ ks : List Key, allStrKeys ks →
    findCaseGo low ks = Except.ok (firstLowMatch low ks) := by
  intro ks
  induction ks with
  | nil =>
    intro _
    rfl
  | cons k rest ih =>
    intro hs
    cases k with
    | kint n =>
      have := hs (Key.kint n) (by simp)
      simp [keyIsStr] at this
    | kstr s =>
      simp only [findCaseGo, firstLowMatch]
      split
      · rfl
      · exact ih (fun j hj => hs j (by simp [hj]))

/-- The iteration keys of a store with all-string keys are all strings. -/
theorem allStrKeys_iterKeysE {es : List (Key × Val)}
    (h : allStrKeys (es.map Prod.fst)) : allStrKeys (iterKeysE es) := by
  intro k hk
  exact h k ((perm_sortKeys (es.map Prod.fst)).mem_iff.mp hk)

/-- `find_case` on a store with all-string keys: no exception, and the
result is the first case-insensitive match in iteration order, or the
key unchanged. -/
theorem findCaseE_allStr (es : List (Key × Val)) (key : String)
    (h : allStrKeys (es.map Prod.fst)) :
    findCaseE es key =
      Except.ok ((firstLowMatch (pyLower key) (iterKeysE es)).getD (Key.kstr key)) := by
  unfold findCaseE
  rw [findCaseGo_allStr _ _ (allStrKeys_iterKeysE h)]
  cases firstLowMatch (pyLower key) (iterKeysE es) <;> rfl

/-- Dereferencing succeeds only inside the heap. -/
theorem hget_lt {h : Heap} {a : Nat} {o : Obj} (hh : hget h a = some o) :
    a < h.objs.length :=
  (List.getElem?_eq_some_iff.mp hh).1

/-- Allocation preserves existing objects. -/
theorem hget_halloc_lt {h : Heap} {a : Nat} (o : Obj) (ha : a < h.objs.length) :
    hget (halloc h o).1 a = hget h a := by
  simp [hget, halloc, List.getElem?_append_left ha]

/-- The freshly allocated address holds the new object. -/
theorem hget_halloc_self (h : Heap) (o : Obj) :
    hget (halloc h o).1 (halloc h o).2 = some o := by
  simp [hget, halloc]

/-- Overwriting an address is observed there. -/
theorem hget_hset_self {h : Heap} {a : Nat} (o : Obj) (ha : a < h.objs.length) :
    hget (hset h a o) a = some o := by
  simp [hget, hset, List.getElem?_set_self, ha]

/-- Overwriting an address leaves the others unchanged. -/
theorem hget_hset_ne {h : Heap} {a b : Nat} (o : Obj) (hne : a ≠ b) :
    hget (hset h a o) b = hget h b := by
  simp [hget, hset, List.getElem?_set_ne hne]

/-- Auto-vivification, in full: reading a missing key `k` of the node at
`a` allocates a fresh empty node (the re-wrap of `Settings()` performed
by `__setitem__` allocates it at the second fresh address), binds it
under `k` in the node at `a`, and returns a reference to the bound
object. -/
theorem getItemH_missing (n : Nat) (h : Heap) (a : Nat) (es : List (Key × HVal))
    (k : Key) (ha : hget h a = some (Obj.node es)) (hk : lookupE es k = none) :
    getItemH (n+4) h a k =
      some (hset (⟨(h.objs ++ [Obj.node []]) ++ [Obj.node []]⟩ : Heap) a
              (Obj.node (setE es k (HVal.href (h.objs.length + 1)))),
            HVal.href (h.objs.length + 1)) := by
  have halen : a < h.objs.length := hget_lt ha
  have h1a : hget (⟨h.objs ++ [Obj.node []]⟩ : Heap) a = some (Obj.node es) := by
    simp only [hget]
    rw [List.getElem?_append_left halen]
    exact ha
  have h1e : hget (⟨h.objs ++ [Obj.node []]⟩ : Heap) h.objs.length =
      some (Obj.node []) := by
    simp [hget]
  have h2a : hget (⟨(h.objs ++ [Obj.node []]) ++ [Obj.node []]⟩ : Heap) a =
      some (Obj.node es) := by
    simp only [hget]
    rw [List.getElem?_append_left (by simp; omega), List.getElem?_append_left halen]
    exact ha
  have hset1 : setItemH (n+3) (⟨h.objs ++ [Obj.node []]⟩ : Heap) a k
      (HVal.href h.objs.length) =
      some (hset (⟨(h.objs ++ [Obj.node []]) ++ [Obj.node []]⟩ : Heap) a
        (Obj.node (setE es k (HVal.href (h.objs.length + 1))))) := by
    simp only [setItemH, h1a, h1e, constructH, constructEntriesH, halloc, h2a,
      List.length_append, List.length_singleton, hset]
  simp only [getItemH, ha, hk, halloc, hset1]
  have hlen2 : a < ((h.objs ++ [Obj.node []]) ++ [Obj.node []]).length := by
    simp
    omega
  rw [hget_hset_self _ hlen2]
  simp only [lookupE_setE_self]

/-- Instance-attribute lookup (the instance `__dict__` portion of
`dict.__getattribute__`/`__setattr__`/`__delattr__`; class attributes are
not modelled, which suffices for the states built below). -/
def lookupA : List (String × Val) → String → Option Val
  | [], _ => none
  | (n1, v) :: rest, n => if n1 = n then some v else lookupA rest n

/-- Instance-attribute store (insertion-ordered, replace in place). -/
def setA : List (String × Val) → String → Val → List (String × Val)
  | [], n, v => [(n, v)]
  | (n1, v1) :: rest, n, v =>
    if n1 = n then (n1, v) :: rest else (n1, v1) :: setA rest n v

/-- Instance-attribute removal (first occurrence). -/
def delA : List (String × Val) → String → List (String × Val)
  | [], _ => []
  | (n1, v1) :: rest, n => if n1 = n then rest else (n1, v1) :: delA rest n

/-- The observable state of one `Settings` object for the attribute
protocol: its mapping contents and its instance attribute dictionary. -/
structure AttrState where
  entries : List (Key × Val)
  attrs : List (String × Val)

/-- `Settings.__setattr__`: for a dunder-looking name, perform
`dict.__setattr__` — and then, because the method lacks an `else`,
*unconditionally* fall through to `self[name] = value`. -/
def setAttrM (st : AttrState) (name : String) (v : Val) : AttrState :=
  let st1 := if dunderB name then { st with attrs := setA st.attrs name v } else st
  { st1 with entries := setItemP st1.entries (Key.kstr name) v }

/-- `Settings.__delattr__`: for a dunder-looking name, perform
`dict.__delattr__` (raising `AttributeError` when the instance attribute
is absent) — and then, because the method lacks an `else`,
*unconditionally* fall through to `del self[name]`, which raises
`KeyError` when the key is not in the mapping. -/
def delAttrM (st : AttrState) (name : String) : Except PyErr AttrState :=
  match (if dunderB name then
           (match lookupA st.attrs name with
            | none => Except.error PyErr.attributeError
            | some _ => Except.ok { st with attrs := delA st.attrs name })
         else Except.ok st) with
  | Except.error e => Except.error e
  | Except.ok st1 =>
    match lookupE st1.entries (Key.kstr name) with
    | none => Except.error PyErr.keyError
    | some _ => Except.ok { st1 with entries := delE st1.entries (Key.kstr name) }

/-- `Settings.__getattr__`: a dunder-looking name goes to
`dict.__getattribute__` (modelled on the instance attributes) and an
ordinary name is redirected to `self[name]` — this method *does* return
early in the dunder branch. -/
def getAttrM (st : AttrState) (name : String) : Except PyErr (AttrState × Val) :=
  if dunderB name then
    (match lookupA st.attrs name with
     | some v => Except.ok (st, v)
     | none => Except.error PyErr.attributeError)
  else
    Except.ok
      (match getItemP st.entries (Key.kstr name) with
       | (es1, v) => ({ st with entries := es1 }, v))

/-- A heap holding only one empty `Settings` (the root store) at address
`0`. -/
def heapEmptyRoot : Heap := ⟨[Obj.node []]⟩

/-- The key path `('a', 'b', 'c')`. -/
def abcKeys : List Key := [Key.kstr ("a"), Key.kstr ("b"), Key.kstr ("c")]

/-- C1.  Auto-vivification: reading a missing key of a `Settings` node
stores a fresh empty node under that key and returns (a reference to)
the stored node; on the empty store, `set_nested(('a','b','c'), 5)`
followed by `get_nested(('a','b','c'))` returns `5`, and — before any
set — `get('a')` returns an empty node bound in the store, and
`get('a').get('b')` again returns an empty node bound under the first
one. -/
theorem claim1_autovivification :
    (∀ (n : Nat) (h : Heap) (a : Nat) (es : List (Key × HVal)) (k : Key),
      hget h a = some (Obj.node es) → lookupE es k = none →
      ∃ (h2 : Heap) (e : Nat),
        getItemH (n+4) h a k = some (h2, HVal.href e) ∧
        hget h2 e = some (Obj.node []) ∧
        hget h2 a = some (Obj.node (setE es k (HVal.href e))) ∧
        h.objs.length ≤ e) ∧
    ((setNestedH 40 heapEmptyRoot (HVal.href 0) abcKeys (HVal.hint 5)).bind
      (fun h1 => (getNestedH 40 h1 (HVal.href 0) abcKeys).map Prod.snd) =
      some (HVal.hint 5)) ∧
    (getItemH 20 heapEmptyRoot 0 (Key.kstr ("a")) =
      some (⟨[Obj.node [(Key.kstr ("a"), HVal.href 2)], Obj.node [], Obj.node []]⟩,
        HVal.href 2)) ∧
    ((getItemH 20 heapEmptyRoot 0 (Key.kstr ("a"))).bind
      (fun p =>
        match p.2 with
        | HVal.href e => (getItemH 20 p.1 e (Key.kstr ("b"))).map
            (fun q => (q.1, HVal.href e, q.2))
        | _ => none) =
      some (⟨[Obj.node [(Key.kstr ("a"), HVal.href 2)], Obj.node [],
              Obj.node [(Key.kstr ("b"), HVal.href 4)], Obj.node [], Obj.node []]⟩,
            HVal.href 2, HVal.href 4)) := by
  refine ⟨?_, rfl, rfl, rfl⟩
  intro n h a es k ha hk
  refine ⟨_, h.objs.length + 1, getItemH_missing n h a es k ha hk, ?_, ?_, by omega⟩
  · rw [hget_hset_ne]
    · have h3 : (h.objs ++ [Obj.node []]).length = h.objs.length + 1 := by simp
      simp only [hget]
      rw [← h3]
      rw [List.getElem?_append_right (by omega)]
      simp
    · intro hcontra
      have := hget_lt ha
      omega
  · refine hget_hset_self _ ?_
    have := hget_lt ha
    simp
    omega

/-- Witness for C1: the general auto-vivification statement applied to
the empty root store and key `'a'`. -/
theorem claim1_autovivification_witness :
    ∃ (h2 : Heap) (e : Nat),
      getItemH 4 heapEmptyRoot 0 (Key.kstr ("a")) = some (h2, HVal.href e) ∧
      hget h2 e = some (Obj.node []) ∧
      hget h2 0 = some (Obj.node (setE [] (Key.kstr ("a")) (HVal.href e))) ∧
      heapEmptyRoot.objs.length ≤ e :=
  claim1_autovivification.1 0 heapEmptyRoot 0 [] (Key.kstr ("a")) rfl rfl

/-- The store S = {a: 1, x: {y: 1}} of the merge examples. -/
def suS2 : List (Key × Val) :=
  [(Key.kstr ("a"), Val.vint 1),
   (Key.kstr ("x"), Val.vnode [(Key.kstr ("y"), Val.vint 1)])]

/-- The store O = {a: 2, x: {y: 2, z: 3}} of the merge examples. -/
def suO2 : List (Key × Val) :=
  [(Key.kstr ("a"), Val.vint 2),
   (Key.kstr ("x"), Val.vnode [(Key.kstr ("y"), Val.vint 2),
     (Key.kstr ("z"), Val.vint 3)])]

/-- The heap holding S at address `0` (with its child node at `1`) and
O at address `2` (child at `3`), for the merge examples. -/
def heapSO : Heap :=
  ⟨[Obj.node [(Key.kstr ("a"), HVal.hint 1), (Key.kstr ("x"), HVal.href 1)],
    Obj.node [(Key.kstr ("y"), HVal.hint 1)],
    Obj.node [(Key.kstr ("a"), HVal.hint 2), (Key.kstr ("x"), HVal.href 3)],
    Obj.node [(Key.kstr ("y"), HVal.hint 2), (Key.kstr ("z"), HVal.hint 3)]]⟩

/-- C2.  `soft_update` never overwrites: a key of self holding a
non-node value keeps that value; a key holding a node that also holds a
node in `other` is replaced by the recursive soft-update of the two
child nodes; `soft_update` returns self (the same object); and the
concrete example S = {a: 1, x: {y: 1}}, O = {a: 2, x: {y: 2, z: 3}}
yields S = {a: 1, x: {y: 1, z: 3}}. -/
theorem claim2_soft_update_preserves :
    (∀ (selfE otherE : List (Key × Val)) (k : Key),
      (otherE.map Prod.fst).Nodup →
      (∀ v, lookupE selfE k = some v → isNodeV v = false →
        lookupE (softUpdateEntries selfE otherE) k = some v) ∧
      (∀ se oe, lookupE selfE k = some (Val.vnode se) →
        lookupE otherE k = some (Val.vnode oe) →
        lookupE (softUpdateEntries selfE otherE) k =
          some (Val.vnode (softUpdateEntries se oe)))) ∧
    (softUpdateEntries suS2 suO2 =
      [(Key.kstr ("a"), Val.vint 1),
       (Key.kstr ("x"), Val.vnode [(Key.kstr ("y"), Val.vint 1),
         (Key.kstr ("z"), Val.vint 3)])]) ∧
    ((softUpdateH 64 heapSO 0 2).map Prod.snd = some 0) ∧
    ((softUpdateH 64 heapSO 0 2).bind (fun p => readVH 64 p.1 (HVal.href p.2)) =
      some (Val.vnode [(Key.kstr ("a"), Val.vint 1),
        (Key.kstr ("x"), Val.vnode [(Key.kstr ("y"), Val.vint 1),
          (Key.kstr ("z"), Val.vint 3)])])) := by
  refine ⟨?_, ?_, rfl, rfl⟩
  · intro selfE otherE k hn
    constructor
    · intro v hv hnode
      rw [softUpdateEntries_lookup selfE otherE k hn]
      rcases hk : lookupE otherE k with - | w
      · exact hv
      · cases w <;> simp only [suStepSpec, hv] <;> cases v <;>
          simp [isNodeV] at hnode ⊢
    · intro se oe hse hoe
      rw [softUpdateEntries_lookup selfE otherE k hn, hoe, hse]
      rfl
  · simp [softUpdateEntries, suS2, suO2, softUpdateGoP, softUpdateStepP,
      sortEntriesB, mixedKeys, sortByB, insertSorted, keyLtB, strLtB, lexLt,
      lookupE, setItemP, setItemWrap, setE, keyIsStr, keyIsInt]

/-- Witness for C2: the preservation statement applied to the concrete
S, O and key `'a'`. -/
theorem claim2_soft_update_preserves_witness :
    lookupE (softUpdateEntries suS2 suO2) (Key.kstr ("a")) = some (Val.vint 1) :=
  ((claim2_soft_update_preserves.1 suS2 suO2 (Key.kstr ("a"))
    (by decide)).1 (Val.vint 1) rfl rfl)

/-- Is the value a raw dict? -/
def isDictB : Val → Bool
  | Val.vdict _ => true
  | _ => false

/-- Heap for the `update` aliasing runs: empty S at `0`, O = {a: [1]} at
`1` with its list object at `2`. -/
def heapUpdList : Heap :=
  ⟨[Obj.node [], Obj.node [(Key.kstr ("a"), HVal.href 2)], Obj.list [HVal.hint 1]]⟩

/-- Counterexample to C3 as stated: `update` does *not* detach incoming
non-node values.  After `S.update(O)` with O = {a: [1]}, appending `2`
to the list held in O is visible in S — S reads {a: [1, 2]}, not
{a: [1]}.  (Right after the update S still reads {a: [1]}; O reads the
same mutated list, confirming the two stores share the object.) -/
theorem claim3_update_counterexample :
    ((updateH 64 heapUpdList 0 1).bind (fun h1 => readVH 64 h1 (HVal.href 0)) =
      some (Val.vnode [(Key.kstr ("a"), Val.vlist [Val.vint 1])])) ∧
    ((updateH 64 heapUpdList 0 1).bind (fun h1 =>
        (listAppendH h1 2 (HVal.hint 2)).bind
          (fun h2 => readVH 64 h2 (HVal.href 0))) =
      some (Val.vnode [(Key.kstr ("a"), Val.vlist [Val.vint 1, Val.vint 2])])) ∧
    ((updateH 64 heapUpdList 0 1).bind (fun h1 =>
        (listAppendH h1 2 (HVal.hint 2)).bind
          (fun h2 => readVH 64 h2 (HVal.href 1))) =
      some (Val.vnode [(Key.kstr ("a"), Val.vlist [Val.vint 1, Val.vint 2])])) ∧
    ((updateH 64 heapUpdList 0 1).bind (fun h1 => hget h1 0) =
      some (Obj.node [(Key.kstr ("a"), HVal.href 2)])) :=
  ⟨rfl, rfl, rfl, rfl⟩

/-- C3 (amended).  `update` always overwrites: for each key of `other`
(a `Settings`), a node value is stored as a copy (re-wrapped by
`__setitem__`) when the key is absent in self or holds a non-node, and
merges recursively when self also holds a node; a non-node value is
stored as the very same value (by reference — see the counterexample for
the visible sharing); keys not in `other` are untouched.  The concrete
example S = {a: 1, x: {y: 1}}, O = {a: 2, x: {y: 2, z: 3}} yields
S = {a: 2, x: {y: 2, z: 3}}. -/
theorem claim3_update_overwrites :
    (∀ (selfE otherE : List (Key × Val)) (k : Key),
      (otherE.map Prod.fst).Nodup →
      (∀ oe, lookupE otherE k = some (Val.vnode oe) →
        ((lookupE selfE k = none ∨
            (∃ w, lookupE selfE k = some w ∧ isNodeV w = false)) →
          lookupE (updateEntries selfE otherE) k =
            some (Val.vnode (constructEntries (copyEntries oe)))) ∧
        (∀ se, lookupE selfE k = some (Val.vnode se) →
          lookupE (updateEntries selfE otherE) k =
            some (Val.vnode (updateEntries se oe)))) ∧
      (∀ v, lookupE otherE k = some v → isNodeV v = false → isDictB v = false →
        lookupE (updateEntries selfE otherE) k = some v) ∧
      (lookupE otherE k = none →
        lookupE (updateEntries selfE otherE) k = lookupE selfE k)) ∧
    (updateEntries suS2 suO2 =
      [(Key.kstr ("a"), Val.vint 2),
       (Key.kstr ("x"), Val.vnode [(Key.kstr ("y"), Val.vint 2),
         (Key.kstr ("z"), Val.vint 3)])]) := by
  refine ⟨?_, ?_⟩
  · intro selfE otherE k hn
    refine ⟨?_, ?_, ?_⟩
    · intro oe hoe
      constructor
      · intro hcur
        rw [updateEntries_lookup selfE otherE k hn, hoe]
        rcases hcur with hcur | ⟨w, hw, hwn⟩
        · rw [hcur]
          rfl
        · rw [hw]
          cases w <;> simp [isNodeV] at hwn ⊢ <;> rfl
      · intro se hse
        rw [updateEntries_lookup selfE otherE k hn, hoe, hse]
        rfl
    · intro v hv hnode hdict
      rw [updateEntries_lookup selfE otherE k hn, hv]
      cases v <;> simp [isNodeV] at hnode ⊢ <;>
        simp [isDictB] at hdict ⊢ <;> rfl
    · intro hnone
      rw [updateEntries_lookup selfE otherE k hn, hnone]
  · simp [updateEntries, suS2, suO2, updateGoP, updateStepP,
      sortEntriesB, mixedKeys, sortByB, insertSorted, keyLtB, strLtB, lexLt,
      lookupE, setItemP, setItemWrap, setE, keyIsStr, keyIsInt]

/-- Witness for C3 (amended): the overwrite statement applied to the
concrete S, O and key `'a'`. -/
theorem claim3_update_overwrites_witness :
    lookupE (updateEntries suS2 suO2) (Key.kstr ("a")) = some (Val.vint 2) :=
  ((claim3_update_overwrites.1 suS2 suO2 (Key.kstr ("a"))
    (by decide)).2.1 (Val.vint 2) rfl rfl rfl)

/-- Heap for the copy counterexample: S = {l: [N]} at `0`, its list
object at `1`, and the node N = {k: 1} stored inside that list at `2`. -/
def heapNodeInList : Heap :=
  ⟨[Obj.node [(Key.kstr ("l"), HVal.href 1)],
    Obj.list [HVal.href 2],
    Obj.node [(Key.kstr ("k"), HVal.hint 1)]]⟩

/-- Counterexample to C4 as stated: a Node stored inside a sequence leaf
is *not* a fresh recursive copy.  With S = {l: [N]}, N = {k: 1}, after
C = S.copy() the copy initially reads {l: [{k: 1}]}, but mutating the
node N through S (setting N.k = 2) is visible in C, which then reads
{l: [{k: 2}]}; indeed C holds a reference to the very same list object
(address 1). -/
theorem claim4_copy_counterexample :
    ((copyH 64 heapNodeInList 0).bind (fun p => readVH 64 p.1 (HVal.href p.2)) =
      some (Val.vnode [(Key.kstr ("l"),
        Val.vlist [Val.vnode [(Key.kstr ("k"), Val.vint 1)]])])) ∧
    ((copyH 64 heapNodeInList 0).bind (fun p =>
        (setItemH 64 p.1 2 (Key.kstr ("k")) (HVal.hint 2)).bind
          (fun h2 => readVH 64 h2 (HVal.href p.2))) =
      some (Val.vnode [(Key.kstr ("l"),
        Val.vlist [Val.vnode [(Key.kstr ("k"), Val.vint 2)]])])) ∧
    ((copyH 64 heapNodeInList 0).bind (fun p => (hget p.1 p.2)) =
      some (Obj.node [(Key.kstr ("l"), HVal.href 1)])) :=
  ⟨rfl, rfl, rfl⟩

/-- Heap for the copy independence run: S with S.x.y = 1 (x at `1`). -/
def heapXY : Heap :=
  ⟨[Obj.node [(Key.kstr ("x"), HVal.href 1)],
    Obj.node [(Key.kstr ("y"), HVal.hint 1)]]⟩

/-- Heap for the shared-leaf run: S = {b: [1]} with its list at `1`. -/
def heapListLeaf : Heap :=
  ⟨[Obj.node [(Key.kstr ("b"), HVal.href 1)], Obj.list [HVal.hint 1]]⟩

/-- C4 (amended).  `copy()` returns a new node in which every Node
stored *directly* as a value is a fresh recursive copy, while every
other top-level value — sequence leaves included, together with any
Nodes inside them — is shared by reference; pure-tree characterization:
the copy has the same keys, node values are recursively copied (and
re-wrapped by `__setitem__`), non-node values are stored unchanged.
Mutating a directly nested Node of S does not change C (with S.x.y = 1,
after S.x.y = 2 the copy still reads x.y = 1, while S reads 2),
reassigning a key of S (S.x = 9) does not change C either, and
appending to a shared top-level list leaf is visible in both S and C
(which hold the same list object). -/
theorem claim4_copy_independence :
    (∀ (es : List (Key × Val)) (k : Key), (es.map Prod.fst).Nodup →
      lookupE (copyEntries es) k = (lookupE es k).map copySpecV) ∧
    ((copyH 64 heapXY 0).bind (fun p =>
        (setItemH 64 p.1 1 (Key.kstr ("y")) (HVal.hint 2)).bind
          (fun h2 => readVH 64 h2 (HVal.href p.2))) =
      some (Val.vnode [(Key.kstr ("x"),
        Val.vnode [(Key.kstr ("y"), Val.vint 1)])])) ∧
    ((copyH 64 heapXY 0).bind (fun p =>
        (setItemH 64 p.1 1 (Key.kstr ("y")) (HVal.hint 2)).bind
          (fun h2 => readVH 64 h2 (HVal.href 0))) =
      some (Val.vnode [(Key.kstr ("x"),
        Val.vnode [(Key.kstr ("y"), Val.vint 2)])])) ∧
    ((copyH 64 heapListLeaf 0).bind (fun p =>
        (listAppendH p.1 1 (HVal.hint 3)).bind
          (fun h2 => readVH 64 h2 (HVal.href p.2))) =
      some (Val.vnode [(Key.kstr ("b"), Val.vlist [Val.vint 1, Val.vint 3])])) ∧
    ((copyH 64 heapListLeaf 0).bind (fun p =>
        (listAppendH p.1 1 (HVal.hint 3)).bind
          (fun h2 => readVH 64 h2 (HVal.href 0))) =
      some (Val.vnode [(Key.kstr ("b"), Val.vlist [Val.vint 1, Val.vint 3])])) ∧
    ((copyH 64 heapListLeaf 0).bind (fun p => hget p.1 p.2) =
      some (Obj.node [(Key.kstr ("b"), HVal.href 1)])) ∧
    ((copyH 64 heapXY 0).bind (fun p =>
        (setItemH 64 p.1 0 (Key.kstr ("x")) (HVal.hint 9)).bind
          (fun h2 => readVH 64 h2 (HVal.href p.2))) =
      some (Val.vnode [(Key.kstr ("x"),
        Val.vnode [(Key.kstr ("y"), Val.vint 1)])])) := by
  refine ⟨?_, rfl, rfl, rfl, rfl, rfl, rfl⟩
  exact fun es k hn => copyEntries_lookup es k hn

/-- Witness for C4 (amended): the pure characterization applied to the
concrete store {a: 1, x: {y: 1}} at key `'x'`. -/
theorem claim4_copy_independence_witness :
    lookupE (copyEntries suS2) (Key.kstr ("x")) =
      (lookupE suS2 (Key.kstr ("x"))).map copySpecV :=
  claim4_copy_independence.1 suS2 (Key.kstr ("x")) (by decide)

/-- A store with the integer keys 2 and 10. -/
def esIntKeys : List (Key × Val) := [(Key.kint 2, Val.vint 0), (Key.kint 10, Val.vint 0)]

/-- Counterexample to C5 as stated: iteration order is *not* the
lexicographic order of the keys' string forms.  For the integer keys
{2, 10}, iteration yields [2, 10] (native numeric order), although by
string form "10" < "2" — the output is not ascending under the
string-form comparison. -/
theorem claim5_iteration_counterexample :
    (iterKeysE esIntKeys = [Key.kint 2, Key.kint 10]) ∧
    ¬ ascB keyStrLtB (iterKeysE esIntKeys) := by
  refine ⟨rfl, ?_⟩
  intro h
  have h2 : List.Pairwise (fun x y => keyStrLtB y x = false)
      [Key.kint 2, Key.kint 10] := h
  simp only [List.pairwise_cons] at h2
  have := h2.1 (Key.kint 10) (by simp)
  exact absurd this (by decide)

/-- C5 (amended).  Iteration yields the keys of the store exactly once
(a permutation of the key list); for all-string keys the order is
ascending under the native string comparison and is independent of
insertion order; for all-integer keys it is ascending under the native
numeric comparison (not the string form); when the keys mix strings and
integers, the direct comparison fails and iteration falls back to the
string forms, again yielding an ascending (by string form) sequence —
the fallback is total, so iteration never fails; keys inserted as
["b", "A", "c"] iterate as ["A", "b", "c"]. -/
theorem claim5_iteration_order :
    (∀ es : List (Key × Val), List.Perm (iterKeysE es) (es.map Prod.fst)) ∧
    (∀ es : List (Key × Val), allStrKeys (es.map Prod.fst) →
      ascB keyLtB (iterKeysE es)) ∧
    (∀ es : List (Key × Val), allIntKeys (es.map Prod.fst) →
      ascB keyLtB (iterKeysE es)) ∧
    (∀ es : List (Key × Val), mixedKeys (es.map Prod.fst) = true →
      ascB keyStrLtB (iterKeysE es)) ∧
    (∀ es1 es2 : List (Key × Val), allStrKeys (es1.map Prod.fst) →
      List.Perm (es1.map Prod.fst) (es2.map Prod.fst) →
      iterKeysE es1 = iterKeysE es2) ∧
    (iterKeysE [(Key.kstr ("b"), Val.vint 0), (Key.kstr ("A"), Val.vint 0),
        (Key.kstr ("c"), Val.vint 0)] =
      [Key.kstr ("A"), Key.kstr ("b"), Key.kstr ("c")]) := by
  refine ⟨?_, ?_, ?_, ?_, ?_, rfl⟩
  · intro es
    exact perm_sortKeys (es.map Prod.fst)
  · intro es h
    exact ascB_sortKeys_str h
  · intro es h
    exact ascB_sortKeys_int h
  · intro es h
    exact ascB_sortKeys_mixed h
  · intro es1 es2 h hp
    exact sortKeys_perm_eq h hp

/-- Witness for C5 (amended): applied to the concrete ["b", "A", "c"]
store (with a permuted insertion ["A", "c", "b"] for the
order-independence part). -/
theorem claim5_iteration_order_witness :
    ascB keyLtB (iterKeysE [(Key.kstr ("b"), Val.vint 0),
      (Key.kstr ("A"), Val.vint 0), (Key.kstr ("c"), Val.vint 0)]) ∧
    iterKeysE [(Key.kstr ("b"), Val.vint 0), (Key.kstr ("A"), Val.vint 0),
        (Key.kstr ("c"), Val.vint 0)] =
      iterKeysE [(Key.kstr ("A"), Val.vint 0), (Key.kstr ("c"), Val.vint 0),
        (Key.kstr ("b"), Val.vint 0)] :=
  ⟨claim5_iteration_order.2.1 _ (by simp [allStrKeys, keyIsStr]),
   claim5_iteration_order.2.2.2.2.1 _ _ (by simp [allStrKeys, keyIsStr]) (by decide)⟩

/-- Is the value a Python list? -/
def isListV : Val → Bool
  | Val.vlist _ => true
  | _ => false

/-- Counterexample to C6 as stated: raw mappings *can* survive in the
tree.  Setting `s['k'] = [{}]` stores the list as is — `__setitem__`
only converts values that are themselves dicts — so a raw dict remains
inside the stored sequence; and even construction leaves a raw dict
inside a nested sub-sequence untouched
(`Settings({'a': [[{}]]})`). -/
theorem claim6_no_raw_mapping_counterexample :
    (noDictE (setItemP [] (Key.kstr ("k")) (Val.vlist [Val.vdict []])) = false) ∧
    (lookupE (setItemP [] (Key.kstr ("k")) (Val.vlist [Val.vdict []]))
        (Key.kstr ("k")) = some (Val.vlist [Val.vdict []])) ∧
    (noDictE (constructEntries
        [(Key.kstr ("a"), Val.vlist [Val.vlist [Val.vdict []]])]) = false) :=
  ⟨rfl, rfl, rfl⟩

/-- C6 (amended).  `construct(source)` converts every plain mapping at
the depths it visits — node values at any depth and direct elements of
sequence values — into Nodes (`entriesOkB` captures exactly that shape);
`set(key, value)` converts a plain-mapping *value* into a Node
(recursively, by construction), and preserves the constructed shape for
any non-sequence value; a sequence value, however, is stored as is (see
the counterexample for the surviving raw mapping). -/
theorem claim6_no_raw_mapping :
    (∀ es : List (Key × Val), entriesOkB (constructEntries es) = true) ∧
    (∀ (es : List (Key × Val)) (k : Key) (d : List (Key × Val)),
      lookupE (setItemP es k (Val.vdict d)) k =
        some (Val.vnode (constructEntries d))) ∧
    (∀ (es : List (Key × Val)) (k : Key) (v : Val),
      entriesOkB es = true → isListV v = false →
      entriesOkB (setItemP es k v) = true) := by
  refine ⟨constructEntries_ok, ?_, ?_⟩
  · intro es k d
    exact lookupE_setE_self es k _
  · intro es k v hes hv
    refine entriesOkB_setE hes ?_
    cases v with
    | vint m => rfl
    | vstr s => rfl
    | vlist xs => simp [isListV] at hv
    | vdict d => exact constructEntries_ok d
    | vnode d => exact constructEntries_ok d

/-- Witness for C6 (amended): applied to the empty store, key `'k'` and
the dict value {b: 1}. -/
theorem claim6_no_raw_mapping_witness :
    lookupE (setItemP [] (Key.kstr ("k")) (Val.vdict [(Key.kstr ("b"), Val.vint 1)]))
        (Key.kstr ("k")) =
      some (Val.vnode (constructEntries [(Key.kstr ("b"), Val.vint 1)])) ∧
    entriesOkB (setItemP [] (Key.kstr ("k")) (Val.vint 7)) = true :=
  ⟨claim6_no_raw_mapping.2.1 [] (Key.kstr ("k")) [(Key.kstr ("b"), Val.vint 1)],
   claim6_no_raw_mapping.2.2 [] (Key.kstr ("k")) (Val.vint 7) rfl rfl⟩

/-- C7: the code contradicts its own docstring.  `__setattr__` says "If
name is not a magic method, redirect it to `__setitem__`", but the
method lacks an `else`: for the dunder name `'__foo__'` it sets the
instance attribute *and* stores the key in the mapping — the store is
not bypassed and the mapping contents change.  `__delattr__` has the
same slip: after `'__foo__'` was set as an attribute only, deleting it
removes the attribute and then still runs `del self['__foo__']`, which
raises `KeyError`.  (`__getattr__` does return early, so attribute
*reads* of dunder names bypass the store as documented.) -/
theorem claim7_dunder_attr_bug :
    (dunderB ("__foo__") = true) ∧
    (setAttrM ⟨[], []⟩ ("__foo__") (Val.vint 5) =
      ⟨[(Key.kstr ("__foo__"), Val.vint 5)], [("__foo__", Val.vint 5)]⟩) ∧
    (delAttrM ⟨[], [("__foo__", Val.vint 5)]⟩ ("__foo__") =
      Except.error PyErr.keyError) ∧
    (getAttrM ⟨[], []⟩ ("__foo__") = Except.error PyErr.attributeError) ∧
    (setAttrM ⟨[], []⟩ ("bar") (Val.vint 5) =
      ⟨[(Key.kstr ("bar"), Val.vint 5)], []⟩) :=
  ⟨rfl, rfl, rfl, rfl, rfl⟩

/-- The plain mapping O = {a: {b: 1}} (a raw dict value inside a raw
dict argument). -/
def dictO8 : List (Key × Val) := [(Key.kstr ("a"), Val.vdict [(Key.kstr ("b"), Val.vint 1)])]

/-- Counterexample to C8 as stated: `soft_update` with a plain mapping
does *not* store dict values as-is.  With S = {} and O = {a: {b: 1}},
the value stored under 'a' is a Node — the assignment `self[name] =
other[name]` passes through `__setitem__`, which wraps the dict. -/
theorem claim8_soft_update_dict_counterexample :
    (softUpdateDictP [] dictO8 =
      [(Key.kstr ("a"), Val.vnode [(Key.kstr ("b"), Val.vint 1)])]) ∧
    ¬ (lookupE (softUpdateDictP [] dictO8) (Key.kstr ("a")) =
        some (Val.vdict [(Key.kstr ("b"), Val.vint 1)])) := by
  constructor
  · simp [softUpdateDictP, dictO8, softUpdateGoP, softUpdateStepP, lookupE,
      setItemP, setItemWrap, setE, constructEntries, constructTop]
  · intro h
    rw [(by simp [softUpdateDictP, dictO8, softUpdateGoP, softUpdateStepP, lookupE,
      setItemP, setItemWrap, setE, constructEntries, constructTop] :
        softUpdateDictP [] dictO8 =
          [(Key.kstr ("a"), Val.vnode [(Key.kstr ("b"), Val.vint 1)])])] at h
    simp [lookupE] at h

/-- C8 (amended).  `soft_update` with a plain mapping `other` copies
each value of `other` whose key is absent in self into self through
`__setitem__`: a value that is itself a plain mapping is thereby wrapped
into a Node (recursively, by construction) rather than stored as a raw
mapping; any other non-node value is stored as is.  Only the top level
of `other` participates — present keys of self are never merged
recursively with dict values. -/
theorem claim8_soft_update_dict :
    (∀ (selfE otherE : List (Key × Val)) (k : Key),
      (otherE.map Prod.fst).Nodup → lookupE selfE k = none →
      (∀ d, lookupE otherE k = some (Val.vdict d) →
        lookupE (softUpdateDictP selfE otherE) k =
          some (Val.vnode (constructEntries d))) ∧
      (∀ v, lookupE otherE k = some v → isNodeV v = false → isDictB v = false →
        lookupE (softUpdateDictP selfE otherE) k = some v)) ∧
    (softUpdateDictP [] dictO8 =
      [(Key.kstr ("a"), Val.vnode [(Key.kstr ("b"), Val.vint 1)])]) := by
  constructor
  · intro selfE otherE k hn habs
    constructor
    · intro d hd
      rw [softUpdateDictP_lookup selfE otherE k hn, hd, habs]
      rfl
    · intro v hv hnode hdict
      rw [softUpdateDictP_lookup selfE otherE k hn, hv, habs]
      cases v <;> simp [isNodeV] at hnode ⊢ <;>
        simp [isDictB] at hdict ⊢ <;> rfl
  · simp [softUpdateDictP, dictO8, softUpdateGoP, softUpdateStepP, lookupE,
      setItemP, setItemWrap, setE, constructEntries, constructTop]

/-- Witness for C8 (amended): applied to S = {} and O = {a: {b: 1}}. -/
theorem claim8_soft_update_dict_witness :
    lookupE (softUpdateDictP [] dictO8) (Key.kstr ("a")) =
      some (Val.vnode (constructEntries [(Key.kstr ("b"), Val.vint 1)])) :=
  (claim8_soft_update_dict.1 [] dictO8 (Key.kstr ("a")) (by decide) rfl).1
    [(Key.kstr ("b"), Val.vint 1)] rfl

/-- The store {"System": 7} (and no key "system"). -/
def sysStore : List (Key × Val) := [(Key.kstr ("System"), Val.vint 7)]

/-- Counterexample to C9 as stated: `find_case` does not return "the
first match or the key unchanged" on *every* store.  On a store whose
only key is the integer 3, `find_case('a')` raises `AttributeError`
(`(3).lower()` does not exist) instead of returning 'a' unchanged. -/
theorem claim9_find_case_counterexample :
    (findCaseE [(Key.kint 3, Val.vint 0)] ("a") =
      Except.error PyErr.attributeError) ∧
    ¬ (findCaseE [(Key.kint 3, Val.vint 0)] ("a") =
        Except.ok (Key.kstr ("a"))) := by
  refine ⟨rfl, ?_⟩
  intro h
  have h2 : (Except.error PyErr.attributeError : Except PyErr Key) =
      Except.ok (Key.kstr ("a")) := h
  exact Except.noConfusion h2

/-- C9 (amended).  On every store whose own keys are all strings,
`find_case(key)` returns the first existing key (in the store's
iteration order) whose lowercase form equals the lowercase form of
`key`, or `key` unchanged when none matches; in particular, on the store
{"System": 7}, `find_case("system")` returns "System", and the
case-insensitive lookup `s[ig("system")]` returns the value stored under
"System". -/
theorem claim9_find_case_resolution :
    (∀ (es : List (Key × Val)) (key : String), allStrKeys (es.map Prod.fst) →
      findCaseE es key =
        Except.ok ((firstLowMatch (pyLower key) (iterKeysE es)).getD
          (Key.kstr key))) ∧
    (findCaseE sysStore ("system") = Except.ok (Key.kstr ("System"))) ∧
    (getItemIgP sysStore ("system") = Except.ok (sysStore, Val.vint 7)) ∧
    (firstLowMatch (pyLower ("system")) (iterKeysE sysStore) =
      some (Key.kstr ("System"))) := by
  refine ⟨?_, rfl, rfl, rfl⟩
  exact fun es key h => findCaseE_allStr es key h

/-- Witness for C9 (amended): the resolution statement applied to the
{"System": 7} store and the key "system". -/
theorem claim9_find_case_resolution_witness :
    findCaseE sysStore ("system") =
      Except.ok ((firstLowMatch (pyLower ("system")) (iterKeysE sysStore)).getD
        (Key.kstr ("system"))) :=
  claim9_find_case_resolution.1 sysStore ("system")
    (by simp [allStrKeys, sysStore, keyIsStr])

/-- Counterexample to C10 as stated: `find_case` (and hence the
`ig`-keyed operations) can raise.  On a store with the integer key 7,
`find_case('a')` raises `AttributeError`; and `del s[ig('a')]` on the
store {"b": 0} raises `KeyError` (the resolved key 'a' is absent), so
even delete on an all-string store is not total. -/
theorem claim10_totality_counterexample :
    (findCaseE [(Key.kint 7, Val.vint 0)] ("a") =
      Except.error PyErr.attributeError) ∧
    (delItemIgP [(Key.kstr ("b"), Val.vint 0)] ("a") =
      Except.error PyErr.keyError) :=
  ⟨rfl, rfl⟩

/-- C10 (amended).  On every store whose own keys are all strings,
`find_case` with a string key completes without raising (an existing
match or the key unchanged), and the `ig`-keyed `contains` and `get`
complete without raising (the `get` may auto-vivify); the `ig`-keyed
delete completes without raising whenever the resolved key exists. -/
theorem claim10_totality :
    ∀ (es : List (Key × Val)) (key : String), allStrKeys (es.map Prod.fst) →
      (∃ k, findCaseE es key = Except.ok k) ∧
      (∃ b, containsIgP es key = Except.ok b) ∧
      (∃ r, getItemIgP es key = Except.ok r) ∧
      (∀ k, findCaseE es key = Except.ok k → containsE es k = true →
        ∃ es2, delItemIgP es key = Except.ok es2) := by
  intro es key h
  have hfc := findCaseE_allStr es key h
  have hco : containsIgP es key = Except.ok (containsE es
      ((firstLowMatch (pyLower key) (iterKeysE es)).getD (Key.kstr key))) := by
    unfold containsIgP
    rw [hfc]
  have hgi : getItemIgP es key = Except.ok (getItemP es
      ((firstLowMatch (pyLower key) (iterKeysE es)).getD (Key.kstr key))) := by
    unfold getItemIgP
    rw [hfc]
  refine ⟨⟨_, hfc⟩, ⟨_, hco⟩, ⟨_, hgi⟩, ?_⟩
  intro k hk hc
  rw [containsE] at hc
  rcases hl : lookupE es k with - | v
  · rw [hl] at hc
    simp at hc
  · refine ⟨delE es k, ?_⟩
    unfold delItemIgP
    rw [hk]
    simp only [hl]

/-- Witness for C10 (amended): totality on the {"System": 7} store with
the key "system". -/
theorem claim10_totality_witness :
    (∃ k, findCaseE sysStore ("system") = Except.ok k) ∧
    (∃ b, containsIgP sysStore ("system") = Except.ok b) ∧
    (∃ r, getItemIgP sysStore ("system") = Except.ok r) ∧
    (∀ k, findCaseE sysStore ("system") = Except.ok k →
      containsE sysStore k = true →
      ∃ es2, delItemIgP sysStore ("system") = Except.ok es2) :=
  claim10_totality sysStore ("system") (by simp [allStrKeys, sysStore, keyIsStr])
